import Mathlib

/-!
Verification of the `bytekey` order-preserving encoder (`src/encoder.rs`).

The encoder writes values into a byte sink so that unsigned byte-wise
lexicographic comparison of the images agrees with the natural order of the
values.  We model bytes as natural numbers below 256, the `MemWriter` sink as
a `List Nat` that is appended to, and machine integers as `Nat` / `Int` with
explicit truncation `% 2^w` at the points where the Rust code casts.
-/

namespace Bytekey

/-- Truncate an integer to its `n`-bit two's-complement bit pattern,
modelling Rust's `as uN` cast of a signed value. -/
def toU (n : Nat) (v : Int) : Nat := (v % ((2 : Int) ^ n)).toNat

/-- Reinterpret an `n`-bit pattern as a two's-complement signed integer,
modelling Rust's `transmute` from an unsigned to a signed machine word. -/
def toI (n : Nat) (b : Nat) : Int :=
  if b < 2 ^ (n - 1) then (b : Int) else (b : Int) - 2 ^ n

/-- The `k` big-endian bytes of `v`'s low `8*k` bits: the bytes produced by
`Writer::write_be_uNN` (and, after truncating casts, `write_u8`). -/
def beBytes : Nat → Nat → List Nat
  | 0, _ => []
  | k + 1, v => (v >>> (8 * k)) % 256 :: beBytes k v

/-- `Writer::write_u8`: one byte, the low 8 bits of the argument. -/
def write_u8 (v : Nat) : List Nat := beBytes 1 v

/-- `Writer::write_be_u16`. -/
def write_be_u16 (v : Nat) : List Nat := beBytes 2 v

/-- `Writer::write_be_u32`. -/
def write_be_u32 (v : Nat) : List Nat := beBytes 4 v

/-- `Writer::write_be_u64`. -/
def write_be_u64 (v : Nat) : List Nat := beBytes 8 v

/-- `Encoder::emit_var_u64` (src/encoder.rs lines 175-201): the
variable-length unsigned encoding.  Each branch mirrors one bucket of the
Rust `if` chain; `as uN` casts become truncation inside the write helpers
or an explicit `% 2^n`. -/
def emit_var_u64 (val : Nat) : List Nat :=
  if val < 1 <<< 4 then
    write_u8 val
  else if val < 1 <<< 12 then
    write_be_u16 ((val % 2 ^ 16) ||| (1 <<< 12))
  else if val < 1 <<< 20 then
    write_u8 (((val >>> 16) % 2 ^ 8) ||| (2 <<< 4)) ++ write_be_u16 val
  else if val < 1 <<< 28 then
    write_be_u32 ((val % 2 ^ 32) ||| (3 <<< 28))
  else if val < 1 <<< 36 then
    write_u8 (((val >>> 32) % 2 ^ 8) ||| (4 <<< 4)) ++ write_be_u32 val
  else if val < 1 <<< 44 then
    write_be_u16 (((val >>> 32) % 2 ^ 16) ||| (5 <<< 12)) ++ write_be_u32 val
  else if val < 1 <<< 52 then
    write_u8 (((val >>> 48) % 2 ^ 8) ||| (6 <<< 4)) ++ write_be_u16 (val >>> 32) ++
      write_be_u32 val
  else if val < 1 <<< 60 then
    write_be_u64 (val ||| (7 <<< 60))
  else
    write_u8 (8 <<< 4) ++ write_be_u64 val

/-- `Encoder::emit_var_i64` (src/encoder.rs lines 271-309): the
variable-length signed encoding.  `mask` is `(v >> 63) as u64` (all ones for
negative input, zero otherwise); `val` is `v.abs() as u64 - (1 & mask)`,
where for `v = i64::MIN` the wrapping `abs` yields the bit pattern `2^63`,
which is exactly `v.natAbs`.  The stray `println!` on line 275 writes to
stdout, not to the byte sink, so it does not appear in the byte image. -/
def emit_var_i64 (v : Int) : List Nat :=
  let mask : Nat := toU 64 (Int.shiftRight v 63)
  let val : Nat := v.natAbs - (1 &&& mask)
  if val < 1 <<< 3 then
    write_u8 ((val ||| (0x10 <<< 3)) ^^^ mask)
  else if val < 1 <<< 11 then
    write_be_u16 ((val ||| (0x11 <<< 11)) ^^^ mask)
  else if val < 1 <<< 19 then
    write_u8 ((((val ||| (0x12 <<< 19)) ^^^ mask) >>> 16) % 2 ^ 8) ++
      write_be_u16 ((val ||| (0x12 <<< 19)) ^^^ mask)
  else if val < 1 <<< 27 then
    write_be_u32 ((val ||| (0x13 <<< 27)) ^^^ mask)
  else if val < 1 <<< 35 then
    write_u8 ((((val ||| (0x14 <<< 35)) ^^^ mask) >>> 32) % 2 ^ 8) ++
      write_be_u32 ((val ||| (0x14 <<< 35)) ^^^ mask)
  else if val < 1 <<< 43 then
    write_be_u16 ((((val ||| (0x15 <<< 43)) ^^^ mask) >>> 32) % 2 ^ 16) ++
      write_be_u32 ((val ||| (0x15 <<< 43)) ^^^ mask)
  else if val < 1 <<< 51 then
    write_u8 ((((val ||| (0x16 <<< 51)) ^^^ mask) >>> 48) % 2 ^ 8) ++
      write_be_u16 ((((val ||| (0x16 <<< 51)) ^^^ mask) >>> 32) % 2 ^ 16) ++
      write_be_u32 ((val ||| (0x16 <<< 51)) ^^^ mask)
  else if val < 1 <<< 59 then
    write_be_u64 ((val ||| (0x17 <<< 59)) ^^^ mask)
  else
    write_u8 ((0x18 <<< 3) ^^^ (mask % 2 ^ 8)) ++ write_be_u64 (val ^^^ mask)

/-- `emit_u8`: the raw byte. -/
def emit_u8 (v : Nat) : List Nat := write_u8 v

/-- `emit_u16`: big-endian bytes. -/
def emit_u16 (v : Nat) : List Nat := write_be_u16 v

/-- `emit_u32`: big-endian bytes. -/
def emit_u32 (v : Nat) : List Nat := write_be_u32 v

/-- `emit_u64`: big-endian bytes. -/
def emit_u64 (v : Nat) : List Nat := write_be_u64 v

/-- `emit_i8`: `write_i8(v ^ i8::MIN)`.  XOR of two `i8` values acts on
their bit patterns, and `write_i8` writes the bit pattern of its argument. -/
def emit_i8 (v : Int) : List Nat := write_u8 (toU 8 v ^^^ toU 8 (-(2 ^ 7)))

/-- `emit_i16`: `write_be_i16(v ^ i16::MIN)`. -/
def emit_i16 (v : Int) : List Nat := write_be_u16 (toU 16 v ^^^ toU 16 (-(2 ^ 15)))

/-- `emit_i32`: `write_be_i32(v ^ i32::MIN)`. -/
def emit_i32 (v : Int) : List Nat := write_be_u32 (toU 32 v ^^^ toU 32 (-(2 ^ 31)))

/-- `emit_i64`: `write_be_i64(v ^ i64::MIN)`. -/
def emit_i64 (v : Int) : List Nat := write_be_u64 (toU 64 v ^^^ toU 64 (-(2 ^ 63)))

/-- `emit_bool`: `0x01` for true, `0x00` for false. -/
def emit_bool (b : Bool) : List Nat := write_u8 (if b then 1 else 0)

/-- `emit_f32` (src/encoder.rs lines 336-340) on the IEEE-754 bit pattern of
the input float: `val` is the pattern read as `i32`, `t = (val >> 31) |
i32::MIN`, and the output is the big-endian bytes of `val ^ t` — XOR acting
on bit patterns. -/
def emit_f32 (bits : Nat) : List Nat :=
  write_be_u32 (bits ^^^ (toU 32 (Int.shiftRight (toI 32 bits) 31) ||| toU 32 (-(2 ^ 31))))

/-- `emit_f64` (src/encoder.rs lines 347-351), as `emit_f32` at width 64. -/
def emit_f64 (bits : Nat) : List Nat :=
  write_be_u64 (bits ^^^ (toU 64 (Int.shiftRight (toI 64 bits) 63) ||| toU 64 (-(2 ^ 63))))

/-- UTF-8 encoding of one Unicode scalar value, modelling the Rust standard
library's `Writer::write_char` used by `emit_char` (the string bytes written
by `emit_str` are the same encoding applied characterwise). -/
def utf8EncodeChar (c : Nat) : List Nat :=
  if c < 0x80 then [c]
  else if c < 0x800 then [0xC0 + c / 0x40, 0x80 + c % 0x40]
  else if c < 0x10000 then
    [0xE0 + c / 0x1000, 0x80 + c / 0x40 % 0x40, 0x80 + c % 0x40]
  else
    [0xF0 + c / 0x40000, 0x80 + c / 0x1000 % 0x40, 0x80 + c / 0x40 % 0x40, 0x80 + c % 0x40]

/-- `emit_char`: `write_char` writes the character's UTF-8 bytes. -/
def emit_char (c : Nat) : List Nat := utf8EncodeChar c

/-- The UTF-8 bytes of a string given as its list of Unicode scalar values:
Rust's `str::as_bytes`. -/
def strBytes : List Nat → List Nat
  | [] => []
  | c :: cs => utf8EncodeChar c ++ strBytes cs

/-- `emit_str` (src/encoder.rs lines 357-360): the string's UTF-8 bytes
followed by a single `0x00` terminator. -/
def emit_str (s : List Nat) : List Nat := strBytes s ++ write_u8 0

/-- Unsigned byte-wise lexicographic comparison of byte strings — the order
a key-value store's `memcmp` induces, with a proper prefix sorting before
any extension. -/
def lexCmp : List Nat → List Nat → Ordering
  | [], [] => .eq
  | [], _ :: _ => .lt
  | _ :: _, [] => .gt
  | a :: as, b :: bs =>
    match compare a b with
    | .eq => lexCmp as bs
    | o => o

/-- Strict byte-wise domination: the two strings agree on a common prefix and
then differ, the left one with the smaller byte.  Unlike plain lexicographic
`<` this survives appending arbitrary suffixes to both sides, which is what
concatenated field encodings need. -/
inductive lexDom : List Nat → List Nat → Prop
  | head {x y : Nat} {s t : List Nat} : x < y → lexDom (x :: s) (y :: t)
  | cons {a : Nat} {s t : List Nat} : lexDom s t → lexDom (a :: s) (a :: t)

mutual

/-- A value of one of the encoder's supported shapes: the scalar leaves, an
optional, a tuple (structs and tuple-structs encode identically, with fields
taken in declaration order), and a tagged-union value carrying its variant
index and payload fields.  Numeric leaves carry mathematical integers; the
type side (`Ty`) constrains them to the machine ranges.  Strings and chars
are lists of Unicode scalar values; floats are carried as IEEE-754 bit
patterns. -/
inductive Val where
  | vU8 (n : Nat)
  | vU16 (n : Nat)
  | vU32 (n : Nat)
  | vU64 (n : Nat)
  | vVarU (n : Nat)
  | vI8 (n : Int)
  | vI16 (n : Int)
  | vI32 (n : Int)
  | vI64 (n : Int)
  | vVarI (n : Int)
  | vF32 (bits : Nat)
  | vF64 (bits : Nat)
  | vBool (b : Bool)
  | vChar (c : Nat)
  | vStr (cs : List Nat)
  | vNone
  | vSome (v : Val)
  | vTup (vs : ValList)
  | vSum (tag : Nat) (fields : ValList)

/-- A list of values (a separate inductive so that all recursions are plainly
structural). -/
inductive ValList where
  | nil
  | cons (v : Val) (vs : ValList)

end

mutual

/-- A supported type shape. -/
inductive Ty where
  | tU8
  | tU16
  | tU32
  | tU64
  | tVarU
  | tI8
  | tI16
  | tI32
  | tI64
  | tVarI
  | tF32
  | tF64
  | tBool
  | tChar
  | tStr
  | tOpt (t : Ty)
  | tTup (ts : TyList)
  | tSum (vs : TyVariants)

/-- Field types of a tuple or record, in declaration order. -/
inductive TyList where
  | tnil
  | tcons (t : Ty) (ts : TyList)

/-- The variants of a tagged union, in declaration order; each carries its
payload field types. -/
inductive TyVariants where
  | vnil
  | vcons (fields : TyList) (rest : TyVariants)

end

/-- Payload field types of the variant with the given declaration index. -/
def variantFields : TyVariants → Nat → Option TyList
  | .vnil, _ => none
  | .vcons f _, 0 => some f
  | .vcons _ rest, n + 1 => variantFields rest n

/-- A Unicode scalar value: below `0x110000` and not a surrogate. -/
def isScalar (c : Nat) : Bool := decide (c < 0x110000 ∧ (c < 0xD800 ∨ 0xE000 ≤ c))

mutual

/-- Typing: the value has the given shape and all numeric leaves are inside
their machine ranges (enum tags are `uint` values, hence below `2^64`). -/
def hasTy : Val → Ty → Bool
  | .vU8 n, .tU8 => decide (n < 2 ^ 8)
  | .vU16 n, .tU16 => decide (n < 2 ^ 16)
  | .vU32 n, .tU32 => decide (n < 2 ^ 32)
  | .vU64 n, .tU64 => decide (n < 2 ^ 64)
  | .vVarU n, .tVarU => decide (n < 2 ^ 64)
  | .vI8 n, .tI8 => decide (-(2 ^ 7) ≤ n ∧ n < 2 ^ 7)
  | .vI16 n, .tI16 => decide (-(2 ^ 15) ≤ n ∧ n < 2 ^ 15)
  | .vI32 n, .tI32 => decide (-(2 ^ 31) ≤ n ∧ n < 2 ^ 31)
  | .vI64 n, .tI64 => decide (-(2 ^ 63) ≤ n ∧ n < 2 ^ 63)
  | .vVarI n, .tVarI => decide (-(2 ^ 63) ≤ n ∧ n < 2 ^ 63)
  | .vF32 b, .tF32 => decide (b < 2 ^ 32)
  | .vF64 b, .tF64 => decide (b < 2 ^ 64)
  | .vBool _, .tBool => true
  | .vChar c, .tChar => isScalar c
  | .vStr cs, .tStr => cs.all isScalar
  | .vNone, .tOpt _ => true
  | .vSome v, .tOpt t => hasTy v t
  | .vTup vs, .tTup ts => hasTyList vs ts
  | .vSum tag fields, .tSum vars =>
    decide (tag < 2 ^ 64) &&
      match variantFields vars tag with
      | some ts => hasTyList fields ts
      | none => false
  | _, _ => false

/-- Pointwise typing of a field list. -/
def hasTyList : ValList → TyList → Bool
  | .nil, .tnil => true
  | .cons v vs, .tcons t ts => hasTy v t && hasTyList vs ts
  | _, _ => false

end

/-- IEEE-754 total order on `n`-bit float patterns: a negative-sign pattern
sorts before a positive-sign one; two positive-sign patterns compare by
magnitude; two negative-sign patterns compare by magnitude reversed.  This
covers NaNs as well (`-NaN` first, `+NaN` last) and puts `-0` before `+0`. -/
def floatTotalCmp (n a b : Nat) : Ordering :=
  if a / 2 ^ (n - 1) = b / 2 ^ (n - 1) then
    if a / 2 ^ (n - 1) = 0 then compare a b else compare b a
  else if a / 2 ^ (n - 1) = 1 then .lt
  else .gt

mutual

/-- The natural semantic order of two same-typed values: numeric order for
integers, IEEE total order for floats, `false < true`, code-point order for
chars, lexicographic order for strings, `None < Some`, field-lexicographic
order for tuples, and variant index before payload for tagged unions.
(Values of different shapes are never compared; those cases return `.eq`.) -/
def cmpVal : Val → Val → Ordering
  | .vU8 a, .vU8 b => compare a b
  | .vU16 a, .vU16 b => compare a b
  | .vU32 a, .vU32 b => compare a b
  | .vU64 a, .vU64 b => compare a b
  | .vVarU a, .vVarU b => compare a b
  | .vI8 a, .vI8 b => compare a b
  | .vI16 a, .vI16 b => compare a b
  | .vI32 a, .vI32 b => compare a b
  | .vI64 a, .vI64 b => compare a b
  | .vVarI a, .vVarI b => compare a b
  | .vF32 a, .vF32 b => floatTotalCmp 32 a b
  | .vF64 a, .vF64 b => floatTotalCmp 64 a b
  | .vBool a, .vBool b => compare (if a then (1 : Nat) else 0) (if b then 1 else 0)
  | .vChar a, .vChar b => compare a b
  | .vStr a, .vStr b => lexCmp a b
  | .vNone, .vNone => .eq
  | .vNone, .vSome _ => .lt
  | .vSome _, .vNone => .gt
  | .vSome a, .vSome b => cmpVal a b
  | .vTup a, .vTup b => cmpValList a b
  | .vSum t1 f1, .vSum t2 f2 =>
    match compare t1 t2 with
    | .eq => cmpValList f1 f2
    | o => o
  | _, _ => .eq

/-- Lexicographic comparison of field lists. -/
def cmpValList : ValList → ValList → Ordering
  | .nil, .nil => .eq
  | .nil, .cons _ _ => .lt
  | .cons _ _, .nil => .gt
  | .cons a as, .cons b bs =>
    match cmpVal a b with
    | .eq => cmpValList as bs
    | o => o

end

mutual

/-- Every string component of the value is free of `NUL` (`U+0000`)
code points — the producer obligation the encoder documents for strings
used inside composite keys. -/
def nulFree : Val → Bool
  | .vStr cs => cs.all fun c => decide (c ≠ 0)
  | .vSome v => nulFree v
  | .vTup vs => nulFreeList vs
  | .vSum _ fields => nulFreeList fields
  | _ => true

/-- `nulFree` over a field list. -/
def nulFreeList : ValList → Bool
  | .nil => true
  | .cons v vs => nulFree v && nulFreeList vs

end

mutual

/-- The byte image of a value, obtained by running the structural dispatcher
(`impl serialize::Encoder for Encoder`) against an in-memory sink:
scalars go to their emitters, `None` is the `false` presence byte, `Some`
the `true` presence byte followed by the payload (`emit_option_none` /
`emit_option_some`), tuples/structs concatenate their fields with no
framing (`emit_struct` / `emit_tuple` just run the field closures), and an
enum value is its variant-index `VarU` tag followed by its fields
(`emit_enum_variant` / `emit_enum_struct_variant`). -/
def encodeVal : Val → List Nat
  | .vU8 n => emit_u8 n
  | .vU16 n => emit_u16 n
  | .vU32 n => emit_u32 n
  | .vU64 n => emit_u64 n
  | .vVarU n => emit_var_u64 n
  | .vI8 n => emit_i8 n
  | .vI16 n => emit_i16 n
  | .vI32 n => emit_i32 n
  | .vI64 n => emit_i64 n
  | .vVarI n => emit_var_i64 n
  | .vF32 b => emit_f32 b
  | .vF64 b => emit_f64 b
  | .vBool b => emit_bool b
  | .vChar c => emit_char c
  | .vStr cs => emit_str cs
  | .vNone => emit_bool false
  | .vSome v => emit_bool true ++ encodeVal v
  | .vTup vs => encodeValList vs
  | .vSum tag fields => emit_var_u64 tag ++ encodeValList fields

/-- Concatenated encodings of a field list, in declaration order. -/
def encodeValList : ValList → List Nat
  | .nil => []
  | .cons v vs => encodeVal v ++ encodeValList vs

end

/-- The `MemWriter` sink state: the bytes written so far. -/
abbrev MemW := List Nat

/-- `EncodeResult` of a dispatcher operation run against a sink: either the
updated sink or an error.  `fail!` panics are modelled as errors carrying
the panic message. -/
abbrev EncResult := Except String MemW

/-- Writing bytes to a `MemWriter` always succeeds. -/
def okWrite (bs : List Nat) (st : MemW) : EncResult := .ok (st ++ bs)

/-- `emit_seq` (src/encoder.rs line 449): `fail!("Not yet implemented")`. -/
def emit_seq (_len : Nat) (_f : MemW → EncResult) (_st : MemW) : EncResult :=
  .error "Not yet implemented"

/-- `emit_seq_elt` (src/encoder.rs line 452): the `fail!` is commented out
(see rust-lang/rust PR 17504) and the element closure is simply run. -/
def emit_seq_elt (_idx : Nat) (f : MemW → EncResult) (st : MemW) : EncResult := f st

/-- `emit_map` (src/encoder.rs line 458): `fail!("Not yet implemented")`. -/
def emit_map (_len : Nat) (_f : MemW → EncResult) (_st : MemW) : EncResult :=
  .error "Not yet implemented"

/-- `emit_map_elt_key` (src/encoder.rs line 461): `fail!("Not yet implemented")`. -/
def emit_map_elt_key (_idx : Nat) (_f : MemW → EncResult) (_st : MemW) : EncResult :=
  .error "Not yet implemented"

/-- `emit_map_elt_val` (src/encoder.rs line 464): `fail!("Not yet implemented")`. -/
def emit_map_elt_val (_idx : Nat) (_f : MemW → EncResult) (_st : MemW) : EncResult :=
  .error "Not yet implemented"

mutual

/-- `Encodable::encode` of a supported value driven against the dispatcher
with a `MemWriter` sink, with the fallibility of every write kept explicit:
each step threads the sink through `EncodeResult`. -/
def encodeE : Val → MemW → EncResult
  | .vU8 n, st => okWrite (emit_u8 n) st
  | .vU16 n, st => okWrite (emit_u16 n) st
  | .vU32 n, st => okWrite (emit_u32 n) st
  | .vU64 n, st => okWrite (emit_u64 n) st
  | .vVarU n, st => okWrite (emit_var_u64 n) st
  | .vI8 n, st => okWrite (emit_i8 n) st
  | .vI16 n, st => okWrite (emit_i16 n) st
  | .vI32 n, st => okWrite (emit_i32 n) st
  | .vI64 n, st => okWrite (emit_i64 n) st
  | .vVarI n, st => okWrite (emit_var_i64 n) st
  | .vF32 b, st => okWrite (emit_f32 b) st
  | .vF64 b, st => okWrite (emit_f64 b) st
  | .vBool b, st => okWrite (emit_bool b) st
  | .vChar c, st => okWrite (emit_char c) st
  | .vStr cs, st => okWrite (emit_str cs) st
  | .vNone, st => okWrite (emit_bool false) st
  | .vSome v, st =>
    match okWrite (emit_bool true) st with
    | .error e => .error e
    | .ok st2 => encodeE v st2
  | .vTup vs, st => encodeEList vs st
  | .vSum tag fields, st =>
    match okWrite (emit_var_u64 tag) st with
    | .error e => .error e
    | .ok st2 => encodeEList fields st2

/-- Drive the fields of a composite in declaration order, stopping at the
first error. -/
def encodeEList : ValList → MemW → EncResult
  | .nil, st => .ok st
  | .cons v vs, st =>
    match encodeE v st with
    | .error e => .error e
    | .ok st2 => encodeEList vs st2

end

/-- The `encode` convenience function (src/encoder.rs lines 107-112): run the
value against a fresh `MemWriter` and `unwrap` the result (an error would
panic; the panic branch is modelled by an empty vector and proved
unreachable). -/
def encode (v : Val) : List Nat :=
  match encodeE v [] with
  | .ok bs => bs
  | .error _ => []

/-! ### Bit-arithmetic toolkit -/

theorem lor_two_pow_mul_add {i b : Nat} (hb : b < 2 ^ i) (a : Nat) :
    (2 ^ i * a) ||| b = 2 ^ i * a + b := by
  apply Nat.eq_of_testBit_eq
  intro j
  rw [Nat.testBit_lor, Nat.testBit_mul_pow_two_add a hb j, Nat.testBit_mul_pow_two]
  by_cases h : j < i
  · simp [h, Nat.not_le.mpr h]
  · have hbj : b.testBit j = false :=
      Nat.testBit_lt_two_pow
        (lt_of_lt_of_le hb (Nat.pow_le_pow_right (by norm_num) (Nat.le_of_not_lt h)))
    simp [h, Nat.le_of_not_lt h, hbj]

theorem xor_two_pow_mul_add {i b : Nat} (hb : b < 2 ^ i) (a : Nat) :
    (2 ^ i * a) ^^^ b = 2 ^ i * a + b := by
  apply Nat.eq_of_testBit_eq
  intro j
  rw [Nat.testBit_xor, Nat.testBit_mul_pow_two_add a hb j, Nat.testBit_mul_pow_two]
  by_cases h : j < i
  · simp [h, Nat.not_le.mpr h]
  · have hbj : b.testBit j = false :=
      Nat.testBit_lt_two_pow
        (lt_of_lt_of_le hb (Nat.pow_le_pow_right (by norm_num) (Nat.le_of_not_lt h)))
    simp [h, Nat.le_of_not_lt h, hbj]

theorem xor_sub_self_two_pow : ∀ (n x : Nat), x < 2 ^ n → x ^^^ (2 ^ n - 1 - x) = 2 ^ n - 1 := by
  intro n
  induction n with
  | zero =>
    intro x hx
    interval_cases x
    rfl
  | succ n ih =>
    intro x hx
    by_cases h : x < 2 ^ n
    · have e1 : 2 ^ (n + 1) - 1 - x = (2 ^ n * 1) ^^^ (2 ^ n - 1 - x) := by
        rw [xor_two_pow_mul_add (by omega) 1]
        have := Nat.pow_lt_pow_succ (a := 2) (by norm_num) (n := n)
        omega
      rw [e1, Nat.xor_comm (2 ^ n * 1) _, ← Nat.xor_assoc, ih x h, Nat.xor_comm,
        xor_two_pow_mul_add (by omega) 1]
      have := Nat.pow_lt_pow_succ (a := 2) (by norm_num) (n := n)
      omega
    · have hx' : x - 2 ^ n < 2 ^ n := by
        have h2 : 2 ^ (n + 1) = 2 ^ n * 2 := by ring
        omega
      have key := ih (x - 2 ^ n) hx'
      have e1 : x = (2 ^ n * 1) ^^^ (x - 2 ^ n) := by
        rw [xor_two_pow_mul_add hx' 1]; omega
      have e2 : 2 ^ (n + 1) - 1 - x = 2 ^ n - 1 - (x - 2 ^ n) := by
        have h2 : 2 ^ (n + 1) = 2 ^ n * 2 := by ring
        omega
      rw [e2]
      nth_rewrite 1 [e1]
      rw [Nat.xor_assoc, key, xor_two_pow_mul_add (by omega) 1]
      have h2 : 2 ^ (n + 1) = 2 ^ n * 2 := by ring
      omega

theorem xor_two_pow_sub_one {n x : Nat} (hx : x < 2 ^ n) :
    x ^^^ (2 ^ n - 1) = 2 ^ n - 1 - x := by
  have h := xor_sub_self_two_pow n x hx
  calc x ^^^ (2 ^ n - 1) = x ^^^ (x ^^^ (2 ^ n - 1 - x)) := by rw [h]
    _ = (x ^^^ x) ^^^ (2 ^ n - 1 - x) := (Nat.xor_assoc ..).symm
    _ = 2 ^ n - 1 - x := by rw [Nat.xor_self, Nat.zero_xor]

theorem int_shiftRight_eq_zero {k : Nat} {v : Int} (h0 : 0 ≤ v) (h : v < 2 ^ k) :
    Int.shiftRight v k = 0 := by
  cases v with
  | ofNat m =>
    show Int.ofNat (m >>> k) = 0
    have h2 : ((2 : Int) ^ k) = ((2 ^ k : Nat) : Int) := by push_cast; ring
    rw [h2, Int.ofNat_eq_coe] at h
    have hm : m < 2 ^ k := by exact_mod_cast h
    rw [Nat.shiftRight_eq_div_pow]
    simp [Nat.div_eq_of_lt hm]
  | negSucc m => exact absurd h0 (by exact Int.not_le.mpr (Int.negSucc_lt_zero m))

theorem int_shiftRight_eq_neg_one {k : Nat} {v : Int} (h0 : -(2 ^ k) ≤ v) (h : v < 0) :
    Int.shiftRight v k = -1 := by
  cases v with
  | ofNat m =>
    exfalso
    rw [Int.ofNat_eq_coe] at h
    omega
  | negSucc m =>
    show Int.negSucc (m >>> k) = -1
    have h2 : ((2 : Int) ^ k) = ((2 ^ k : Nat) : Int) := by push_cast; ring
    rw [h2, Int.negSucc_eq] at h0
    have hm : m < 2 ^ k := by omega
    rw [Nat.shiftRight_eq_div_pow]
    simp [Nat.div_eq_of_lt hm]

/-! ### Big-endian byte strings -/

theorem beBytes_length : ∀ (k v : Nat), (beBytes k v).length = k := by
  intro k
  induction k with
  | zero => intro v; rfl
  | succ k ih => intro v; simp [beBytes, ih]

theorem beBytes_one (v : Nat) : beBytes 1 v = [v % 256] := rfl

theorem beBytes_two (v : Nat) : beBytes 2 v = [v / 2 ^ 8 % 256, v % 256] := by
  simp [show (2 : Nat) = 1 + 1 from rfl, beBytes, Nat.shiftRight_eq_div_pow]

theorem beBytes_three (v : Nat) :
    beBytes 3 v = [v / 2 ^ 16 % 256, v / 2 ^ 8 % 256, v % 256] := by
  simp [show (3 : Nat) = 2 + 1 from rfl, beBytes_two, beBytes, Nat.shiftRight_eq_div_pow]

theorem beBytes_four (v : Nat) :
    beBytes 4 v = [v / 2 ^ 24 % 256, v / 2 ^ 16 % 256, v / 2 ^ 8 % 256, v % 256] := by
  simp [show (4 : Nat) = 3 + 1 from rfl, beBytes_three, beBytes, Nat.shiftRight_eq_div_pow]

theorem beBytes_five (v : Nat) :
    beBytes 5 v = [v / 2 ^ 32 % 256, v / 2 ^ 24 % 256, v / 2 ^ 16 % 256, v / 2 ^ 8 % 256,
      v % 256] := by
  simp [show (5 : Nat) = 4 + 1 from rfl, beBytes_four, beBytes, Nat.shiftRight_eq_div_pow]

theorem beBytes_six (v : Nat) :
    beBytes 6 v = [v / 2 ^ 40 % 256, v / 2 ^ 32 % 256, v / 2 ^ 24 % 256, v / 2 ^ 16 % 256,
      v / 2 ^ 8 % 256, v % 256] := by
  simp [show (6 : Nat) = 5 + 1 from rfl, beBytes_five, beBytes, Nat.shiftRight_eq_div_pow]

theorem beBytes_seven (v : Nat) :
    beBytes 7 v = [v / 2 ^ 48 % 256, v / 2 ^ 40 % 256, v / 2 ^ 32 % 256, v / 2 ^ 24 % 256,
      v / 2 ^ 16 % 256, v / 2 ^ 8 % 256, v % 256] := by
  simp [show (7 : Nat) = 6 + 1 from rfl, beBytes_six, beBytes, Nat.shiftRight_eq_div_pow]

theorem beBytes_eight (v : Nat) :
    beBytes 8 v = [v / 2 ^ 56 % 256, v / 2 ^ 48 % 256, v / 2 ^ 40 % 256, v / 2 ^ 32 % 256,
      v / 2 ^ 24 % 256, v / 2 ^ 16 % 256, v / 2 ^ 8 % 256, v % 256] := by
  simp [show (8 : Nat) = 7 + 1 from rfl, beBytes_seven, beBytes, Nat.shiftRight_eq_div_pow]

theorem beBytes_nine (v : Nat) :
    beBytes 9 v = [v / 2 ^ 64 % 256, v / 2 ^ 56 % 256, v / 2 ^ 48 % 256, v / 2 ^ 40 % 256,
      v / 2 ^ 32 % 256, v / 2 ^ 24 % 256, v / 2 ^ 16 % 256, v / 2 ^ 8 % 256, v % 256] := by
  simp [show (9 : Nat) = 8 + 1 from rfl, beBytes_eight, beBytes, Nat.shiftRight_eq_div_pow]

/-! ### Lexicographic order machinery -/

theorem lexDom_append {a b : List Nat} (h : lexDom a b) (s t : List Nat) :
    lexDom (a ++ s) (b ++ t) := by
  induction h with
  | head hxy => exact lexDom.head hxy
  | cons _ ih => exact lexDom.cons ih

theorem lexDom_append_left : ∀ (p : List Nat) {s t : List Nat},
    lexDom s t → lexDom (p ++ s) (p ++ t) := by
  intro p
  induction p with
  | nil => intro s t h; exact h
  | cons a p ih => intro s t h; exact lexDom.cons (ih h)

theorem lexCmp_of_lexDom {a b : List Nat} (h : lexDom a b) : lexCmp a b = .lt := by
  induction h with
  | head hxy => simp [lexCmp, Nat.compare_eq_lt.mpr hxy]
  | cons _ ih => simp [lexCmp, Nat.compare_eq_eq.mpr rfl, ih]

theorem lexCmp_refl : ∀ a : List Nat, lexCmp a a = .eq := by
  intro a
  induction a with
  | nil => rfl
  | cons x xs ih => simp [lexCmp, Nat.compare_eq_eq.mpr rfl, ih]

theorem lexCmp_swap : ∀ a b : List Nat, lexCmp a b = (lexCmp b a).swap := by
  intro a
  induction a with
  | nil => intro b; cases b <;> rfl
  | cons x xs ih =>
    intro b
    cases b with
    | nil => rfl
    | cons y ys =>
      rcases Nat.lt_trichotomy x y with h | h | h
      · simp [lexCmp, Nat.compare_eq_lt.mpr h, Nat.compare_eq_gt.mpr h, Ordering.swap]
      · subst h
        simp [lexCmp, Nat.compare_eq_eq.mpr rfl, ih]
      · simp [lexCmp, Nat.compare_eq_lt.mpr h, Nat.compare_eq_gt.mpr h, Ordering.swap]

theorem lexCmp_eq_iff : ∀ a b : List Nat, lexCmp a b = .eq ↔ a = b := by
  intro a
  induction a with
  | nil => intro b; cases b <;> simp [lexCmp]
  | cons x xs ih =>
    intro b
    cases b with
    | nil => simp [lexCmp]
    | cons y ys =>
      rcases Nat.lt_trichotomy x y with h | h | h
      · simp [lexCmp, Nat.compare_eq_lt.mpr h]
        omega
      · subst h
        simp [lexCmp, Nat.compare_eq_eq.mpr rfl, ih]
      · simp [lexCmp, Nat.compare_eq_gt.mpr h]
        omega

theorem beBytes_dom : ∀ (k x y : Nat), x % 2 ^ (8 * k) < y % 2 ^ (8 * k) →
    lexDom (beBytes k x) (beBytes k y) := by
  intro k
  induction k with
  | zero =>
    intro x y h
    exfalso
    rw [Nat.mul_zero, pow_zero] at h
    omega
  | succ k ih =>
    intro x y h
    have hp : (0 : Nat) < 2 ^ (8 * k) := Nat.pos_pow_of_pos _ (by norm_num)
    have hsplit : 2 ^ (8 * (k + 1)) = 2 ^ (8 * k) * 256 := by
      rw [show 8 * (k + 1) = 8 * k + 8 from by ring, pow_add]
      norm_num
    rw [hsplit] at h
    have hx : (x >>> (8 * k)) % 256 = x % (2 ^ (8 * k) * 256) / 2 ^ (8 * k) := by
      rw [Nat.shiftRight_eq_div_pow]
      exact Nat.div_mod_eq_mod_mul_div x (2 ^ (8 * k)) 256
    have hy : (y >>> (8 * k)) % 256 = y % (2 ^ (8 * k) * 256) / 2 ^ (8 * k) := by
      rw [Nat.shiftRight_eq_div_pow]
      exact Nat.div_mod_eq_mod_mul_div y (2 ^ (8 * k)) 256
    rcases Nat.lt_trichotomy (x % (2 ^ (8 * k) * 256) / 2 ^ (8 * k))
      (y % (2 ^ (8 * k) * 256) / 2 ^ (8 * k)) with hq | hq | hq
    · show lexDom ((x >>> (8 * k)) % 256 :: beBytes k x) ((y >>> (8 * k)) % 256 :: beBytes k y)
      rw [hx, hy]
      exact lexDom.head hq
    · show lexDom ((x >>> (8 * k)) % 256 :: beBytes k x) ((y >>> (8 * k)) % 256 :: beBytes k y)
      rw [hx, hy, hq]
      apply lexDom.cons
      apply ih
      have hdx := Nat.div_add_mod (x % (2 ^ (8 * k) * 256)) (2 ^ (8 * k))
      have hdy := Nat.div_add_mod (y % (2 ^ (8 * k) * 256)) (2 ^ (8 * k))
      have hmx : x % (2 ^ (8 * k) * 256) % 2 ^ (8 * k) = x % 2 ^ (8 * k) :=
        Nat.mod_mod_of_dvd x (dvd_mul_right _ _)
      have hmy : y % (2 ^ (8 * k) * 256) % 2 ^ (8 * k) = y % 2 ^ (8 * k) :=
        Nat.mod_mod_of_dvd y (dvd_mul_right _ _)
      rw [hq] at hdx
      omega
    · exfalso
      have hle : x % (2 ^ (8 * k) * 256) / 2 ^ (8 * k) ≤
          y % (2 ^ (8 * k) * 256) / 2 ^ (8 * k) := Nat.div_le_div_right (Nat.le_of_lt h)
      omega

theorem beBytes_dom_of_lt {k x y : Nat} (hxy : x < y) (hy : y < 2 ^ (8 * k)) :
    lexDom (beBytes k x) (beBytes k y) := by
  apply beBytes_dom
  rw [Nat.mod_eq_of_lt (lt_trans hxy hy), Nat.mod_eq_of_lt hy]
  exact hxy

theorem beBytes_dom_head {k1 k2 N1 N2 : Nat}
    (h : (N1 >>> (8 * k1)) % 256 < (N2 >>> (8 * k2)) % 256) :
    lexDom (beBytes (k1 + 1) N1) (beBytes (k2 + 1) N2) :=
  lexDom.head h

/-! ### The variable-length unsigned encoding -/

/-- The length code `L` of the bucket containing an unsigned value: the
number of trailing bytes after the header byte. -/
def varUCode (v : Nat) : Nat :=
  if v < 2 ^ 4 then 0
  else if v < 2 ^ 12 then 1
  else if v < 2 ^ 20 then 2
  else if v < 2 ^ 28 then 3
  else if v < 2 ^ 36 then 4
  else if v < 2 ^ 44 then 5
  else if v < 2 ^ 52 then 6
  else if v < 2 ^ 60 then 7
  else 8

theorem varUCode_le_eight (v : Nat) : varUCode v ≤ 8 := by
  unfold varUCode
  split_ifs <;> omega

set_option maxHeartbeats 1000000 in
theorem varUCode_mono {a b : Nat} (h : a ≤ b) : varUCode a ≤ varUCode b := by
  unfold varUCode
  split_ifs <;> omega

theorem varUCode_bounds (v : Nat) (hv : v < 2 ^ 64) :
    varUCode v * 2 ^ (8 * varUCode v + 4) + v < 2 ^ (8 * (varUCode v + 1)) ∧
    2 ^ (8 * varUCode v) * (16 * varUCode v) ≤ varUCode v * 2 ^ (8 * varUCode v + 4) + v ∧
    varUCode v * 2 ^ (8 * varUCode v + 4) + v < 2 ^ (8 * varUCode v) * (16 * varUCode v + 16) := by
  unfold varUCode
  split_ifs <;> refine ⟨?_, ?_, ?_⟩ <;> norm_num <;> omega

/-- `emit_var_u64 v` writes `L+1` big-endian bytes of the number obtained
by prefixing `v` with the length code `L` as the high nibble. -/
theorem varU_spec (v : Nat) (hv : v < 2 ^ 64) :
    emit_var_u64 v = beBytes (varUCode v + 1) (varUCode v * 2 ^ (8 * varUCode v + 4) + v) := by
  by_cases c0 : v < 2 ^ 4
  · have hL : varUCode v = 0 := by unfold varUCode; rw [if_pos c0]
    have he : emit_var_u64 v = write_u8 v := by
      unfold emit_var_u64
      rw [if_pos (by rw [Nat.shiftLeft_eq]; omega)]
    rw [he, hL]
    norm_num [write_u8, write_be_u16, write_be_u32, write_be_u64, beBytes_one, beBytes_two,
      beBytes_three, beBytes_four, beBytes_five, beBytes_six, beBytes_seven, beBytes_eight,
      beBytes_nine, Nat.shiftRight_eq_div_pow, Nat.shiftLeft_eq, List.cons_append,
      List.nil_append, List.cons.injEq]
    all_goals omega
  · by_cases c1 : v < 2 ^ 12
    · have hL : varUCode v = 1 := by
        unfold varUCode
        rw [if_neg c0, if_pos c1]
      have he : emit_var_u64 v = write_be_u16 ((v % 2 ^ 16) ||| (1 <<< 12)) := by
        unfold emit_var_u64
        rw [if_neg (by rw [Nat.shiftLeft_eq]; omega), if_pos (by rw [Nat.shiftLeft_eq]; omega)]
      have hlor : (v % 2 ^ 16) ||| (1 <<< 12) = 2 ^ 12 * 1 + v := by
        rw [Nat.shiftLeft_eq, Nat.mod_eq_of_lt (by omega),
          show (1 : Nat) * 2 ^ 12 = 2 ^ 12 * 1 from by ring, Nat.lor_comm]
        exact lor_two_pow_mul_add (by omega) 1
      rw [he, hlor, hL]
      norm_num [write_u8, write_be_u16, write_be_u32, write_be_u64, beBytes_one, beBytes_two,
        beBytes_three, beBytes_four, beBytes_five, beBytes_six, beBytes_seven, beBytes_eight,
        beBytes_nine, Nat.shiftRight_eq_div_pow, Nat.shiftLeft_eq, List.cons_append,
        List.nil_append, List.cons.injEq]
      all_goals omega
    · by_cases c2 : v < 2 ^ 20
      · have hL : varUCode v = 2 := by
          unfold varUCode
          rw [if_neg c0, if_neg c1, if_pos c2]
        have he : emit_var_u64 v =
            write_u8 (((v >>> 16) % 2 ^ 8) ||| (2 <<< 4)) ++ write_be_u16 v := by
          unfold emit_var_u64
          rw [if_neg (by rw [Nat.shiftLeft_eq]; omega), if_neg (by rw [Nat.shiftLeft_eq]; omega),
            if_pos (by rw [Nat.shiftLeft_eq]; omega)]
        have hlor : ((v >>> 16) % 2 ^ 8) ||| (2 <<< 4) = 2 ^ 4 * 2 + v / 2 ^ 16 := by
          rw [Nat.shiftRight_eq_div_pow, Nat.shiftLeft_eq, Nat.mod_eq_of_lt (by omega),
            show (2 : Nat) * 2 ^ 4 = 2 ^ 4 * 2 from by ring, Nat.lor_comm]
          exact lor_two_pow_mul_add (by omega) 2
        rw [he, hlor, hL]
        norm_num [write_u8, write_be_u16, write_be_u32, write_be_u64, beBytes_one, beBytes_two,
          beBytes_three, beBytes_four, beBytes_five, beBytes_six, beBytes_seven, beBytes_eight,
          beBytes_nine, Nat.shiftRight_eq_div_pow, Nat.shiftLeft_eq, List.cons_append,
          List.nil_append, List.cons.injEq]
        all_goals omega
      · by_cases c3 : v < 2 ^ 28
        · have hL : varUCode v = 3 := by
            unfold varUCode
            rw [if_neg c0, if_neg c1, if_neg c2, if_pos c3]
          have he : emit_var_u64 v = write_be_u32 ((v % 2 ^ 32) ||| (3 <<< 28)) := by
            unfold emit_var_u64
            rw [if_neg (by rw [Nat.shiftLeft_eq]; omega), if_neg (by rw [Nat.shiftLeft_eq]; omega),
              if_neg (by rw [Nat.shiftLeft_eq]; omega), if_pos (by rw [Nat.shiftLeft_eq]; omega)]
          have hlor : (v % 2 ^ 32) ||| (3 <<< 28) = 2 ^ 28 * 3 + v := by
            rw [Nat.shiftLeft_eq, Nat.mod_eq_of_lt (by omega),
              show (3 : Nat) * 2 ^ 28 = 2 ^ 28 * 3 from by ring, Nat.lor_comm]
            exact lor_two_pow_mul_add (by omega) 3
          rw [he, hlor, hL]
          norm_num [write_u8, write_be_u16, write_be_u32, write_be_u64, beBytes_one, beBytes_two,
            beBytes_three, beBytes_four, beBytes_five, beBytes_six, beBytes_seven, beBytes_eight,
            beBytes_nine, Nat.shiftRight_eq_div_pow, Nat.shiftLeft_eq, List.cons_append,
            List.nil_append, List.cons.injEq]
          all_goals omega
        · by_cases c4 : v < 2 ^ 36
          · have hL : varUCode v = 4 := by
              unfold varUCode
              rw [if_neg c0, if_neg c1, if_neg c2, if_neg c3, if_pos c4]
            have he : emit_var_u64 v =
                write_u8 (((v >>> 32) % 2 ^ 8) ||| (4 <<< 4)) ++ write_be_u32 v := by
              unfold emit_var_u64
              rw [if_neg (by rw [Nat.shiftLeft_eq]; omega), if_neg (by rw [Nat.shiftLeft_eq]; omega),
                if_neg (by rw [Nat.shiftLeft_eq]; omega), if_neg (by rw [Nat.shiftLeft_eq]; omega),
                if_pos (by rw [Nat.shiftLeft_eq]; omega)]
            have hlor : ((v >>> 32) % 2 ^ 8) ||| (4 <<< 4) = 2 ^ 4 * 4 + v / 2 ^ 32 := by
              rw [Nat.shiftRight_eq_div_pow, Nat.shiftLeft_eq, Nat.mod_eq_of_lt (by omega),
                show (4 : Nat) * 2 ^ 4 = 2 ^ 4 * 4 from by ring, Nat.lor_comm]
              exact lor_two_pow_mul_add (by omega) 4
            rw [he, hlor, hL]
            norm_num [write_u8, write_be_u16, write_be_u32, write_be_u64, beBytes_one, beBytes_two,
              beBytes_three, beBytes_four, beBytes_five, beBytes_six, beBytes_seven, beBytes_eight,
              beBytes_nine, Nat.shiftRight_eq_div_pow, Nat.shiftLeft_eq, List.cons_append,
              List.nil_append, List.cons.injEq]
            all_goals omega
          · by_cases c5 : v < 2 ^ 44
            · have hL : varUCode v = 5 := by
                unfold varUCode
                rw [if_neg c0, if_neg c1, if_neg c2, if_neg c3, if_neg c4, if_pos c5]
              have he : emit_var_u64 v =
                  write_be_u16 (((v >>> 32) % 2 ^ 16) ||| (5 <<< 12)) ++ write_be_u32 v := by
                unfold emit_var_u64
                rw [if_neg (by rw [Nat.shiftLeft_eq]; omega),
                  if_neg (by rw [Nat.shiftLeft_eq]; omega),
                  if_neg (by rw [Nat.shiftLeft_eq]; omega),
                  if_neg (by rw [Nat.shiftLeft_eq]; omega),
                  if_neg (by rw [Nat.shiftLeft_eq]; omega),
                  if_pos (by rw [Nat.shiftLeft_eq]; omega)]
              have hlor : ((v >>> 32) % 2 ^ 16) ||| (5 <<< 12) = 2 ^ 12 * 5 + v / 2 ^ 32 := by
                rw [Nat.shiftRight_eq_div_pow, Nat.shiftLeft_eq, Nat.mod_eq_of_lt (by omega),
                  show (5 : Nat) * 2 ^ 12 = 2 ^ 12 * 5 from by ring, Nat.lor_comm]
                exact lor_two_pow_mul_add (by omega) 5
              rw [he, hlor, hL]
              norm_num [write_u8, write_be_u16, write_be_u32, write_be_u64, beBytes_one, beBytes_two,
                beBytes_three, beBytes_four, beBytes_five, beBytes_six, beBytes_seven, beBytes_eight,
                beBytes_nine, Nat.shiftRight_eq_div_pow, Nat.shiftLeft_eq, List.cons_append,
                List.nil_append, List.cons.injEq]
              all_goals omega
            · by_cases c6 : v < 2 ^ 52
              · have hL : varUCode v = 6 := by
                  unfold varUCode
                  rw [if_neg c0, if_neg c1, if_neg c2, if_neg c3, if_neg c4, if_neg c5, if_pos c6]
                have he : emit_var_u64 v =
                    write_u8 (((v >>> 48) % 2 ^ 8) ||| (6 <<< 4)) ++ write_be_u16 (v >>> 32) ++
                      write_be_u32 v := by
                  unfold emit_var_u64
                  rw [if_neg (by rw [Nat.shiftLeft_eq]; omega),
                    if_neg (by rw [Nat.shiftLeft_eq]; omega),
                    if_neg (by rw [Nat.shiftLeft_eq]; omega),
                    if_neg (by rw [Nat.shiftLeft_eq]; omega),
                    if_neg (by rw [Nat.shiftLeft_eq]; omega),
                    if_neg (by rw [Nat.shiftLeft_eq]; omega),
                    if_pos (by rw [Nat.shiftLeft_eq]; omega)]
                have hlor : ((v >>> 48) % 2 ^ 8) ||| (6 <<< 4) = 2 ^ 4 * 6 + v / 2 ^ 48 := by
                  rw [Nat.shiftRight_eq_div_pow, Nat.shiftLeft_eq, Nat.mod_eq_of_lt (by omega),
                    show (6 : Nat) * 2 ^ 4 = 2 ^ 4 * 6 from by ring, Nat.lor_comm]
                  exact lor_two_pow_mul_add (by omega) 6
                rw [he, hlor, hL]
                norm_num [write_u8, write_be_u16, write_be_u32, write_be_u64, beBytes_one, beBytes_two,
                  beBytes_three, beBytes_four, beBytes_five, beBytes_six, beBytes_seven, beBytes_eight,
                  beBytes_nine, Nat.shiftRight_eq_div_pow, Nat.shiftLeft_eq, List.cons_append,
                  List.nil_append, List.cons.injEq]
                all_goals omega
              · by_cases c7 : v < 2 ^ 60
                · have hL : varUCode v = 7 := by
                    unfold varUCode
                    rw [if_neg c0, if_neg c1, if_neg c2, if_neg c3, if_neg c4, if_neg c5,
                      if_neg c6, if_pos c7]
                  have he : emit_var_u64 v = write_be_u64 (v ||| (7 <<< 60)) := by
                    unfold emit_var_u64
                    rw [if_neg (by rw [Nat.shiftLeft_eq]; omega),
                      if_neg (by rw [Nat.shiftLeft_eq]; omega),
                      if_neg (by rw [Nat.shiftLeft_eq]; omega),
                      if_neg (by rw [Nat.shiftLeft_eq]; omega),
                      if_neg (by rw [Nat.shiftLeft_eq]; omega),
                      if_neg (by rw [Nat.shiftLeft_eq]; omega),
                      if_neg (by rw [Nat.shiftLeft_eq]; omega),
                      if_pos (by rw [Nat.shiftLeft_eq]; omega)]
                  have hlor : v ||| (7 <<< 60) = 2 ^ 60 * 7 + v := by
                    rw [Nat.shiftLeft_eq,
                      show (7 : Nat) * 2 ^ 60 = 2 ^ 60 * 7 from by ring, Nat.lor_comm]
                    exact lor_two_pow_mul_add (by omega) 7
                  rw [he, hlor, hL]
                  norm_num [write_u8, write_be_u16, write_be_u32, write_be_u64, beBytes_one, beBytes_two,
                    beBytes_three, beBytes_four, beBytes_five, beBytes_six, beBytes_seven, beBytes_eight,
                    beBytes_nine, Nat.shiftRight_eq_div_pow, Nat.shiftLeft_eq, List.cons_append,
                    List.nil_append, List.cons.injEq]
                  all_goals omega
                · have hL : varUCode v = 8 := by
                    unfold varUCode
                    rw [if_neg c0, if_neg c1, if_neg c2, if_neg c3, if_neg c4, if_neg c5,
                      if_neg c6, if_neg c7]
                  have he : emit_var_u64 v = write_u8 (8 <<< 4) ++ write_be_u64 v := by
                    unfold emit_var_u64
                    rw [if_neg (by rw [Nat.shiftLeft_eq]; omega),
                      if_neg (by rw [Nat.shiftLeft_eq]; omega),
                      if_neg (by rw [Nat.shiftLeft_eq]; omega),
                      if_neg (by rw [Nat.shiftLeft_eq]; omega),
                      if_neg (by rw [Nat.shiftLeft_eq]; omega),
                      if_neg (by rw [Nat.shiftLeft_eq]; omega),
                      if_neg (by rw [Nat.shiftLeft_eq]; omega),
                      if_neg (by rw [Nat.shiftLeft_eq]; omega)]
                  rw [he, hL]
                  norm_num [write_u8, write_be_u16, write_be_u32, write_be_u64, beBytes_one, beBytes_two,
                    beBytes_three, beBytes_four, beBytes_five, beBytes_six, beBytes_seven, beBytes_eight,
                    beBytes_nine, Nat.shiftRight_eq_div_pow, Nat.shiftLeft_eq, List.cons_append,
                    List.nil_append, List.cons.injEq]
                  all_goals omega

/-- Strict order of `emit_var_u64` images under byte-wise domination. -/
theorem varU_dom {a b : Nat} (hab : a < b) (hb : b < 2 ^ 64) :
    lexDom (emit_var_u64 a) (emit_var_u64 b) := by
  have ha64 : a < 2 ^ 64 := lt_trans hab hb
  have sa := varU_spec a ha64
  have sb := varU_spec b hb
  have bnda := varUCode_bounds a ha64
  have bndb := varUCode_bounds b hb
  have hmono : varUCode a ≤ varUCode b := varUCode_mono (Nat.le_of_lt hab)
  rcases Nat.eq_or_lt_of_le hmono with heq | hlt
  · rw [sa, sb, ← heq]
    exact beBytes_dom_of_lt (by omega) (by rw [heq]; exact bndb.1)
  · rw [sa, sb]
    apply beBytes_dom_head
    have hpa : (0 : Nat) < 2 ^ (8 * varUCode a) := Nat.pos_pow_of_pos _ (by norm_num)
    have hpb : (0 : Nat) < 2 ^ (8 * varUCode b) := Nat.pos_pow_of_pos _ (by norm_num)
    have hha : (varUCode a * 2 ^ (8 * varUCode a + 4) + a) / 2 ^ (8 * varUCode a) <
        16 * varUCode a + 16 := by
      rw [Nat.div_lt_iff_lt_mul hpa]
      calc varUCode a * 2 ^ (8 * varUCode a + 4) + a
          < 2 ^ (8 * varUCode a) * (16 * varUCode a + 16) := bnda.2.2
        _ = (16 * varUCode a + 16) * 2 ^ (8 * varUCode a) := by ring
    have hhb : 16 * varUCode b ≤
        (varUCode b * 2 ^ (8 * varUCode b + 4) + b) / 2 ^ (8 * varUCode b) := by
      rw [Nat.le_div_iff_mul_le hpb]
      calc 16 * varUCode b * 2 ^ (8 * varUCode b)
          = 2 ^ (8 * varUCode b) * (16 * varUCode b) := by ring
        _ ≤ varUCode b * 2 ^ (8 * varUCode b + 4) + b := bndb.2.1
    have hhb2 : (varUCode b * 2 ^ (8 * varUCode b + 4) + b) / 2 ^ (8 * varUCode b) <
        16 * varUCode b + 16 := by
      rw [Nat.div_lt_iff_lt_mul hpb]
      calc varUCode b * 2 ^ (8 * varUCode b + 4) + b
          < 2 ^ (8 * varUCode b) * (16 * varUCode b + 16) := bndb.2.2
        _ = (16 * varUCode b + 16) * 2 ^ (8 * varUCode b) := by ring
    have hla : varUCode a ≤ 8 := varUCode_le_eight a
    have hlb : varUCode b ≤ 8 := varUCode_le_eight b
    rw [Nat.shiftRight_eq_div_pow, Nat.shiftRight_eq_div_pow,
      Nat.mod_eq_of_lt (by omega), Nat.mod_eq_of_lt (by omega)]
    omega

/-! ### The variable-length signed encoding -/

/-- The length code of the bucket containing the adjusted magnitude
(`abs(v)`, minus one when `v` is negative). -/
def varICode (m : Nat) : Nat :=
  if m < 2 ^ 3 then 0
  else if m < 2 ^ 11 then 1
  else if m < 2 ^ 19 then 2
  else if m < 2 ^ 27 then 3
  else if m < 2 ^ 35 then 4
  else if m < 2 ^ 43 then 5
  else if m < 2 ^ 51 then 6
  else if m < 2 ^ 59 then 7
  else 8

/-- The positive-form image value: sign bit set, length code, magnitude. -/
def varIPosVal (m : Nat) : Nat := (16 + varICode m) * 2 ^ (8 * varICode m + 3) + m

theorem varICode_le_eight (m : Nat) : varICode m ≤ 8 := by
  unfold varICode
  split_ifs <;> omega

set_option maxHeartbeats 1000000 in
theorem varICode_mono {a b : Nat} (h : a ≤ b) : varICode a ≤ varICode b := by
  unfold varICode
  split_ifs <;> omega

theorem varICode_bounds (m : Nat) (hm : m < 2 ^ 63) :
    varIPosVal m < 2 ^ (8 * (varICode m + 1)) ∧
    2 ^ (8 * varICode m) * (128 + 8 * varICode m) ≤ varIPosVal m ∧
    varIPosVal m < 2 ^ (8 * varICode m) * (128 + 8 * varICode m + 8) := by
  unfold varIPosVal varICode
  split_ifs <;> refine ⟨?_, ?_, ?_⟩ <;> norm_num <;> omega

theorem varI_mask_nonneg {v : Int} (h0 : 0 ≤ v) (h1 : v < 2 ^ 63) :
    toU 64 (Int.shiftRight v 63) = 0 := by
  rw [int_shiftRight_eq_zero h0 h1]
  rfl

theorem varI_mask_neg {v : Int} (h0 : -(2 ^ 63) ≤ v) (h1 : v < 0) :
    toU 64 (Int.shiftRight v 63) = 2 ^ 64 - 1 := by
  rw [int_shiftRight_eq_neg_one h0 h1]
  decide

/-- On a non-negative input the signed encoder writes the positive-form
image value in big-endian. -/
theorem varI_spec_nonneg (v : Int) (h0 : 0 ≤ v) (h1 : v < 2 ^ 63) :
    emit_var_i64 v = beBytes (varICode v.toNat + 1) (varIPosVal v.toNat) := by
  have hval : v.natAbs - (1 &&& toU 64 (Int.shiftRight v 63)) = v.toNat := by
    rw [varI_mask_nonneg h0 h1]
    have hna : v.natAbs = v.toNat := by omega
    simp [hna]
  have hm : v.toNat < 2 ^ 63 := by omega
  unfold emit_var_i64
  simp only [hval]
  simp only [varI_mask_nonneg h0 h1, Nat.xor_zero]
  unfold varIPosVal
  clear hval
  revert hm
  generalize v.toNat = m
  intro hm
  by_cases c0 : m < 2 ^ 3
  · have hL : varICode m = 0 := by unfold varICode; rw [if_pos c0]
    rw [if_pos (by rw [Nat.shiftLeft_eq]; omega), hL]
    have hlor : m ||| (0x10 <<< 3) = 2 ^ 3 * 16 + m := by
      rw [Nat.shiftLeft_eq, show (0x10 : Nat) * 2 ^ 3 = 2 ^ 3 * 16 from by ring, Nat.lor_comm]
      exact lor_two_pow_mul_add (by omega) 16
    rw [hlor]
    norm_num [write_u8, beBytes_one, beBytes_two]
    all_goals omega
  · by_cases c1 : m < 2 ^ 11
    · have hL : varICode m = 1 := by unfold varICode; rw [if_neg c0, if_pos c1]
      rw [if_neg (by rw [Nat.shiftLeft_eq]; omega), if_pos (by rw [Nat.shiftLeft_eq]; omega), hL]
      have hlor : m ||| (0x11 <<< 11) = 2 ^ 11 * 17 + m := by
        rw [Nat.shiftLeft_eq, show (0x11 : Nat) * 2 ^ 11 = 2 ^ 11 * 17 from by ring, Nat.lor_comm]
        exact lor_two_pow_mul_add (by omega) 17
      rw [hlor]
      norm_num [write_be_u16, beBytes_two]
      all_goals omega
    · by_cases c2 : m < 2 ^ 19
      · have hL : varICode m = 2 := by unfold varICode; rw [if_neg c0, if_neg c1, if_pos c2]
        rw [if_neg (by rw [Nat.shiftLeft_eq]; omega), if_neg (by rw [Nat.shiftLeft_eq]; omega),
          if_pos (by rw [Nat.shiftLeft_eq]; omega), hL]
        have hlor : m ||| (0x12 <<< 19) = 2 ^ 19 * 18 + m := by
          rw [Nat.shiftLeft_eq, show (0x12 : Nat) * 2 ^ 19 = 2 ^ 19 * 18 from by ring,
            Nat.lor_comm]
          exact lor_two_pow_mul_add (by omega) 18
        rw [hlor]
        norm_num [write_u8, write_be_u16, beBytes_one, beBytes_two, beBytes_three,
          Nat.shiftRight_eq_div_pow, List.cons_append, List.nil_append, List.cons.injEq]
        all_goals omega
      · by_cases c3 : m < 2 ^ 27
        · have hL : varICode m = 3 := by
            unfold varICode
            rw [if_neg c0, if_neg c1, if_neg c2, if_pos c3]
          rw [if_neg (by rw [Nat.shiftLeft_eq]; omega), if_neg (by rw [Nat.shiftLeft_eq]; omega),
            if_neg (by rw [Nat.shiftLeft_eq]; omega), if_pos (by rw [Nat.shiftLeft_eq]; omega),
            hL]
          have hlor : m ||| (0x13 <<< 27) = 2 ^ 27 * 19 + m := by
            rw [Nat.shiftLeft_eq, show (0x13 : Nat) * 2 ^ 27 = 2 ^ 27 * 19 from by ring,
              Nat.lor_comm]
            exact lor_two_pow_mul_add (by omega) 19
          rw [hlor]
          norm_num [write_be_u32, beBytes_four]
          all_goals omega
        · by_cases c4 : m < 2 ^ 35
          · have hL : varICode m = 4 := by
              unfold varICode
              rw [if_neg c0, if_neg c1, if_neg c2, if_neg c3, if_pos c4]
            rw [if_neg (by rw [Nat.shiftLeft_eq]; omega), if_neg (by rw [Nat.shiftLeft_eq]; omega),
              if_neg (by rw [Nat.shiftLeft_eq]; omega), if_neg (by rw [Nat.shiftLeft_eq]; omega),
              if_pos (by rw [Nat.shiftLeft_eq]; omega), hL]
            have hlor : m ||| (0x14 <<< 35) = 2 ^ 35 * 20 + m := by
              rw [Nat.shiftLeft_eq, show (0x14 : Nat) * 2 ^ 35 = 2 ^ 35 * 20 from by ring,
                Nat.lor_comm]
              exact lor_two_pow_mul_add (by omega) 20
            rw [hlor]
            norm_num [write_u8, write_be_u32, beBytes_one, beBytes_four, beBytes_five,
              Nat.shiftRight_eq_div_pow, List.cons_append, List.nil_append, List.cons.injEq]
            all_goals omega
          · by_cases c5 : m < 2 ^ 43
            · have hL : varICode m = 5 := by
                unfold varICode
                rw [if_neg c0, if_neg c1, if_neg c2, if_neg c3, if_neg c4, if_pos c5]
              rw [if_neg (by rw [Nat.shiftLeft_eq]; omega),
                if_neg (by rw [Nat.shiftLeft_eq]; omega),
                if_neg (by rw [Nat.shiftLeft_eq]; omega),
                if_neg (by rw [Nat.shiftLeft_eq]; omega),
                if_neg (by rw [Nat.shiftLeft_eq]; omega),
                if_pos (by rw [Nat.shiftLeft_eq]; omega), hL]
              have hlor : m ||| (0x15 <<< 43) = 2 ^ 43 * 21 + m := by
                rw [Nat.shiftLeft_eq, show (0x15 : Nat) * 2 ^ 43 = 2 ^ 43 * 21 from by ring,
                  Nat.lor_comm]
                exact lor_two_pow_mul_add (by omega) 21
              rw [hlor]
              norm_num [write_be_u16, write_be_u32, beBytes_two, beBytes_four, beBytes_six,
                Nat.shiftRight_eq_div_pow, List.cons_append, List.nil_append, List.cons.injEq]
              omega
            · by_cases c6 : m < 2 ^ 51
              · have hL : varICode m = 6 := by
                  unfold varICode
                  rw [if_neg c0, if_neg c1, if_neg c2, if_neg c3, if_neg c4, if_neg c5, if_pos c6]
                rw [if_neg (by rw [Nat.shiftLeft_eq]; omega),
                  if_neg (by rw [Nat.shiftLeft_eq]; omega),
                  if_neg (by rw [Nat.shiftLeft_eq]; omega),
                  if_neg (by rw [Nat.shiftLeft_eq]; omega),
                  if_neg (by rw [Nat.shiftLeft_eq]; omega),
                  if_neg (by rw [Nat.shiftLeft_eq]; omega),
                  if_pos (by rw [Nat.shiftLeft_eq]; omega), hL]
                have hlor : m ||| (0x16 <<< 51) = 2 ^ 51 * 22 + m := by
                  rw [Nat.shiftLeft_eq, show (0x16 : Nat) * 2 ^ 51 = 2 ^ 51 * 22 from by ring,
                    Nat.lor_comm]
                  exact lor_two_pow_mul_add (by omega) 22
                rw [hlor]
                norm_num [write_u8, write_be_u16, write_be_u32, beBytes_one, beBytes_two,
                  beBytes_four, beBytes_seven, Nat.shiftRight_eq_div_pow, List.cons_append,
                  List.nil_append, List.cons.injEq]
                omega
              · by_cases c7 : m < 2 ^ 59
                · have hL : varICode m = 7 := by
                    unfold varICode
                    rw [if_neg c0, if_neg c1, if_neg c2, if_neg c3, if_neg c4, if_neg c5,
                      if_neg c6, if_pos c7]
                  rw [if_neg (by rw [Nat.shiftLeft_eq]; omega),
                    if_neg (by rw [Nat.shiftLeft_eq]; omega),
                    if_neg (by rw [Nat.shiftLeft_eq]; omega),
                    if_neg (by rw [Nat.shiftLeft_eq]; omega),
                    if_neg (by rw [Nat.shiftLeft_eq]; omega),
                    if_neg (by rw [Nat.shiftLeft_eq]; omega),
                    if_neg (by rw [Nat.shiftLeft_eq]; omega),
                    if_pos (by rw [Nat.shiftLeft_eq]; omega), hL]
                  have hlor : m ||| (0x17 <<< 59) = 2 ^ 59 * 23 + m := by
                    rw [Nat.shiftLeft_eq, show (0x17 : Nat) * 2 ^ 59 = 2 ^ 59 * 23 from by ring,
                      Nat.lor_comm]
                    exact lor_two_pow_mul_add (by omega) 23
                  rw [hlor]
                  norm_num [write_be_u64, beBytes_eight]
                  all_goals omega
                · have hL : varICode m = 8 := by
                    unfold varICode
                    rw [if_neg c0, if_neg c1, if_neg c2, if_neg c3, if_neg c4, if_neg c5,
                      if_neg c6, if_neg c7]
                  rw [if_neg (by rw [Nat.shiftLeft_eq]; omega),
                    if_neg (by rw [Nat.shiftLeft_eq]; omega),
                    if_neg (by rw [Nat.shiftLeft_eq]; omega),
                    if_neg (by rw [Nat.shiftLeft_eq]; omega),
                    if_neg (by rw [Nat.shiftLeft_eq]; omega),
                    if_neg (by rw [Nat.shiftLeft_eq]; omega),
                    if_neg (by rw [Nat.shiftLeft_eq]; omega),
                    if_neg (by rw [Nat.shiftLeft_eq]; omega), hL]
                  norm_num [write_u8, write_be_u64, Nat.shiftLeft_eq, beBytes_one,
                    beBytes_eight, beBytes_nine, List.cons_append, List.nil_append,
                    List.cons.injEq]
                  omega

/-- On a negative input the signed encoder writes the byte-wise complement
of the positive-form image of `abs(v) - 1`. -/
theorem varI_spec_neg (v : Int) (h0 : -(2 ^ 63) ≤ v) (h1 : v < 0) :
    emit_var_i64 v = beBytes (varICode (v.natAbs - 1) + 1)
      (2 ^ (8 * (varICode (v.natAbs - 1) + 1)) - 1 - varIPosVal (v.natAbs - 1)) := by
  have hval : v.natAbs - (1 &&& toU 64 (Int.shiftRight v 63)) = v.natAbs - 1 := by
    rw [varI_mask_neg h0 h1]
    have hone : (1 &&& (2 ^ 64 - 1) : Nat) = 1 := by decide
    rw [hone]
  have hm : v.natAbs - 1 < 2 ^ 63 := by omega
  unfold emit_var_i64
  simp only [hval]
  simp only [varI_mask_neg h0 h1]
  unfold varIPosVal
  clear hval
  revert hm
  generalize v.natAbs - 1 = m
  intro hm
  by_cases c0 : m < 2 ^ 3
  · have hL : varICode m = 0 := by
      unfold varICode
      rw [if_pos c0]
    rw [if_pos (by rw [Nat.shiftLeft_eq]; omega), hL]
    have hlor : m ||| (0x10 <<< 3) = 2 ^ 3 * 16 + m := by
      rw [Nat.shiftLeft_eq, show (0x10 : Nat) * 2 ^ 3 = 2 ^ 3 * 16 from by ring,
        Nat.lor_comm]
      exact lor_two_pow_mul_add (by omega) 16
    have hxor : (2 ^ 3 * 16 + m) ^^^ (2 ^ 64 - 1) =
        2 ^ 64 - 1 - (2 ^ 3 * 16 + m) := xor_two_pow_sub_one (by omega)
    rw [hlor, hxor]
    norm_num [write_u8, beBytes_one]
    all_goals omega
  · by_cases c1 : m < 2 ^ 11
    · have hL : varICode m = 1 := by
        unfold varICode
        rw [if_neg c0, if_pos c1]
      rw [if_neg (by rw [Nat.shiftLeft_eq]; omega),
        if_pos (by rw [Nat.shiftLeft_eq]; omega), hL]
      have hlor : m ||| (0x11 <<< 11) = 2 ^ 11 * 17 + m := by
        rw [Nat.shiftLeft_eq, show (0x11 : Nat) * 2 ^ 11 = 2 ^ 11 * 17 from by ring,
          Nat.lor_comm]
        exact lor_two_pow_mul_add (by omega) 17
      have hxor : (2 ^ 11 * 17 + m) ^^^ (2 ^ 64 - 1) =
          2 ^ 64 - 1 - (2 ^ 11 * 17 + m) := xor_two_pow_sub_one (by omega)
      rw [hlor, hxor]
      norm_num [write_be_u16, beBytes_two]
      all_goals omega
    · by_cases c2 : m < 2 ^ 19
      · have hL : varICode m = 2 := by
          unfold varICode
          rw [if_neg c0, if_neg c1, if_pos c2]
        rw [if_neg (by rw [Nat.shiftLeft_eq]; omega),
          if_neg (by rw [Nat.shiftLeft_eq]; omega),
          if_pos (by rw [Nat.shiftLeft_eq]; omega), hL]
        have hlor : m ||| (0x12 <<< 19) = 2 ^ 19 * 18 + m := by
          rw [Nat.shiftLeft_eq, show (0x12 : Nat) * 2 ^ 19 = 2 ^ 19 * 18 from by ring,
            Nat.lor_comm]
          exact lor_two_pow_mul_add (by omega) 18
        have hxor : (2 ^ 19 * 18 + m) ^^^ (2 ^ 64 - 1) =
            2 ^ 64 - 1 - (2 ^ 19 * 18 + m) := xor_two_pow_sub_one (by omega)
        rw [hlor, hxor]
        norm_num [write_u8, write_be_u16, beBytes_one, beBytes_two, beBytes_three, Nat.shiftRight_eq_div_pow, List.cons_append, List.nil_append, List.cons.injEq]
        all_goals omega
      · by_cases c3 : m < 2 ^ 27
        · have hL : varICode m = 3 := by
            unfold varICode
            rw [if_neg c0, if_neg c1, if_neg c2, if_pos c3]
          rw [if_neg (by rw [Nat.shiftLeft_eq]; omega),
            if_neg (by rw [Nat.shiftLeft_eq]; omega),
            if_neg (by rw [Nat.shiftLeft_eq]; omega),
            if_pos (by rw [Nat.shiftLeft_eq]; omega), hL]
          have hlor : m ||| (0x13 <<< 27) = 2 ^ 27 * 19 + m := by
            rw [Nat.shiftLeft_eq, show (0x13 : Nat) * 2 ^ 27 = 2 ^ 27 * 19 from by ring,
              Nat.lor_comm]
            exact lor_two_pow_mul_add (by omega) 19
          have hxor : (2 ^ 27 * 19 + m) ^^^ (2 ^ 64 - 1) =
              2 ^ 64 - 1 - (2 ^ 27 * 19 + m) := xor_two_pow_sub_one (by omega)
          rw [hlor, hxor]
          norm_num [write_be_u32, beBytes_four]
          all_goals omega
        · by_cases c4 : m < 2 ^ 35
          · have hL : varICode m = 4 := by
              unfold varICode
              rw [if_neg c0, if_neg c1, if_neg c2, if_neg c3, if_pos c4]
            rw [if_neg (by rw [Nat.shiftLeft_eq]; omega),
              if_neg (by rw [Nat.shiftLeft_eq]; omega),
              if_neg (by rw [Nat.shiftLeft_eq]; omega),
              if_neg (by rw [Nat.shiftLeft_eq]; omega),
              if_pos (by rw [Nat.shiftLeft_eq]; omega), hL]
            have hlor : m ||| (0x14 <<< 35) = 2 ^ 35 * 20 + m := by
              rw [Nat.shiftLeft_eq, show (0x14 : Nat) * 2 ^ 35 = 2 ^ 35 * 20 from by ring,
                Nat.lor_comm]
              exact lor_two_pow_mul_add (by omega) 20
            have hxor : (2 ^ 35 * 20 + m) ^^^ (2 ^ 64 - 1) =
                2 ^ 64 - 1 - (2 ^ 35 * 20 + m) := xor_two_pow_sub_one (by omega)
            rw [hlor, hxor]
            norm_num [write_u8, write_be_u32, beBytes_one, beBytes_four, beBytes_five, Nat.shiftRight_eq_div_pow, List.cons_append, List.nil_append, List.cons.injEq]
            all_goals omega
          · by_cases c5 : m < 2 ^ 43
            · have hL : varICode m = 5 := by
                unfold varICode
                rw [if_neg c0, if_neg c1, if_neg c2, if_neg c3, if_neg c4, if_pos c5]
              rw [if_neg (by rw [Nat.shiftLeft_eq]; omega),
                if_neg (by rw [Nat.shiftLeft_eq]; omega),
                if_neg (by rw [Nat.shiftLeft_eq]; omega),
                if_neg (by rw [Nat.shiftLeft_eq]; omega),
                if_neg (by rw [Nat.shiftLeft_eq]; omega),
                if_pos (by rw [Nat.shiftLeft_eq]; omega), hL]
              have hlor : m ||| (0x15 <<< 43) = 2 ^ 43 * 21 + m := by
                rw [Nat.shiftLeft_eq, show (0x15 : Nat) * 2 ^ 43 = 2 ^ 43 * 21 from by ring,
                  Nat.lor_comm]
                exact lor_two_pow_mul_add (by omega) 21
              have hxor : (2 ^ 43 * 21 + m) ^^^ (2 ^ 64 - 1) =
                  2 ^ 64 - 1 - (2 ^ 43 * 21 + m) := xor_two_pow_sub_one (by omega)
              rw [hlor, hxor]
              norm_num [write_be_u16, write_be_u32, beBytes_two, beBytes_four, beBytes_six, Nat.shiftRight_eq_div_pow, List.cons_append, List.nil_append, List.cons.injEq]
              all_goals omega
            · by_cases c6 : m < 2 ^ 51
              · have hL : varICode m = 6 := by
                  unfold varICode
                  rw [if_neg c0, if_neg c1, if_neg c2, if_neg c3, if_neg c4, if_neg c5, if_pos c6]
                rw [if_neg (by rw [Nat.shiftLeft_eq]; omega),
                  if_neg (by rw [Nat.shiftLeft_eq]; omega),
                  if_neg (by rw [Nat.shiftLeft_eq]; omega),
                  if_neg (by rw [Nat.shiftLeft_eq]; omega),
                  if_neg (by rw [Nat.shiftLeft_eq]; omega),
                  if_neg (by rw [Nat.shiftLeft_eq]; omega),
                  if_pos (by rw [Nat.shiftLeft_eq]; omega), hL]
                have hlor : m ||| (0x16 <<< 51) = 2 ^ 51 * 22 + m := by
                  rw [Nat.shiftLeft_eq, show (0x16 : Nat) * 2 ^ 51 = 2 ^ 51 * 22 from by ring,
                    Nat.lor_comm]
                  exact lor_two_pow_mul_add (by omega) 22
                have hxor : (2 ^ 51 * 22 + m) ^^^ (2 ^ 64 - 1) =
                    2 ^ 64 - 1 - (2 ^ 51 * 22 + m) := xor_two_pow_sub_one (by omega)
                rw [hlor, hxor]
                norm_num [write_u8, write_be_u16, write_be_u32, beBytes_one, beBytes_two, beBytes_four, beBytes_seven, Nat.shiftRight_eq_div_pow, List.cons_append, List.nil_append, List.cons.injEq]
                all_goals omega
              · by_cases c7 : m < 2 ^ 59
                · have hL : varICode m = 7 := by
                    unfold varICode
                    rw [if_neg c0, if_neg c1, if_neg c2, if_neg c3, if_neg c4, if_neg c5, if_neg c6, if_pos c7]
                  rw [if_neg (by rw [Nat.shiftLeft_eq]; omega),
                    if_neg (by rw [Nat.shiftLeft_eq]; omega),
                    if_neg (by rw [Nat.shiftLeft_eq]; omega),
                    if_neg (by rw [Nat.shiftLeft_eq]; omega),
                    if_neg (by rw [Nat.shiftLeft_eq]; omega),
                    if_neg (by rw [Nat.shiftLeft_eq]; omega),
                    if_neg (by rw [Nat.shiftLeft_eq]; omega),
                    if_pos (by rw [Nat.shiftLeft_eq]; omega), hL]
                  have hlor : m ||| (0x17 <<< 59) = 2 ^ 59 * 23 + m := by
                    rw [Nat.shiftLeft_eq, show (0x17 : Nat) * 2 ^ 59 = 2 ^ 59 * 23 from by ring,
                      Nat.lor_comm]
                    exact lor_two_pow_mul_add (by omega) 23
                  have hxor : (2 ^ 59 * 23 + m) ^^^ (2 ^ 64 - 1) =
                      2 ^ 64 - 1 - (2 ^ 59 * 23 + m) := xor_two_pow_sub_one (by omega)
                  rw [hlor, hxor]
                  norm_num [write_be_u64, beBytes_eight]
                  all_goals omega
                · have hL : varICode m = 8 := by
                    unfold varICode
                    rw [if_neg c0, if_neg c1, if_neg c2, if_neg c3, if_neg c4, if_neg c5,
                      if_neg c6, if_neg c7]
                  rw [if_neg (by rw [Nat.shiftLeft_eq]; omega),
                    if_neg (by rw [Nat.shiftLeft_eq]; omega),
                    if_neg (by rw [Nat.shiftLeft_eq]; omega),
                    if_neg (by rw [Nat.shiftLeft_eq]; omega),
                    if_neg (by rw [Nat.shiftLeft_eq]; omega),
                    if_neg (by rw [Nat.shiftLeft_eq]; omega),
                    if_neg (by rw [Nat.shiftLeft_eq]; omega),
                    if_neg (by rw [Nat.shiftLeft_eq]; omega), hL]
                  have hhead : ((0x18 <<< 3) ^^^ ((2 ^ 64 - 1) % 2 ^ 8) : Nat) = 63 := by decide
                  have hxor : m ^^^ (2 ^ 64 - 1) = 2 ^ 64 - 1 - m := xor_two_pow_sub_one (by omega)
                  rw [hhead, hxor]
                  norm_num [write_u8, write_be_u64, beBytes_one, beBytes_eight, beBytes_nine,
                    List.cons_append, List.nil_append, List.cons.injEq]
                  all_goals omega

theorem varIPosVal_lt {x y : Nat} (hxy : x < y) (heq : varICode x = varICode y) :
    varIPosVal x < varIPosVal y := by
  unfold varIPosVal
  rw [heq]
  exact Nat.add_lt_add_left hxy _

set_option maxHeartbeats 1000000 in
theorem varI_head_bounds (m : Nat) (hm : m < 2 ^ 63) :
    120 - 8 * varICode m ≤
      (2 ^ (8 * (varICode m + 1)) - 1 - varIPosVal m) / 2 ^ (8 * varICode m) ∧
    (2 ^ (8 * (varICode m + 1)) - 1 - varIPosVal m) / 2 ^ (8 * varICode m) <
      128 - 8 * varICode m ∧
    128 + 8 * varICode m ≤ varIPosVal m / 2 ^ (8 * varICode m) ∧
    varIPosVal m / 2 ^ (8 * varICode m) < 128 + 8 * varICode m + 8 := by
  unfold varIPosVal varICode
  split_ifs <;> refine ⟨?_, ?_, ?_, ?_⟩ <;> norm_num <;> omega

/-- Strict order of `emit_var_i64` images under byte-wise domination. -/
theorem varI_dom {a b : Int} (hab : a < b) (ha : -(2 ^ 63) ≤ a) (hb : b < 2 ^ 63) :
    lexDom (emit_var_i64 a) (emit_var_i64 b) := by
  by_cases ha0 : 0 ≤ a
  · have hb0 : 0 ≤ b := le_trans ha0 (le_of_lt hab)
    have ha63 : a.toNat < 2 ^ 63 := by omega
    have hb63 : b.toNat < 2 ^ 63 := by omega
    have htn : a.toNat < b.toNat := by omega
    rw [varI_spec_nonneg a ha0 (by omega), varI_spec_nonneg b hb0 hb]
    have hmono : varICode a.toNat ≤ varICode b.toNat := varICode_mono (Nat.le_of_lt htn)
    rcases Nat.eq_or_lt_of_le hmono with heq | hlt
    · rw [← heq]
      exact beBytes_dom_of_lt (varIPosVal_lt htn heq)
        (by rw [heq]; exact (varICode_bounds b.toNat hb63).1)
    · apply beBytes_dom_head
      have hA := varI_head_bounds a.toNat ha63
      have hB := varI_head_bounds b.toNat hb63
      have hla := varICode_le_eight a.toNat
      have hlb := varICode_le_eight b.toNat
      rw [Nat.shiftRight_eq_div_pow, Nat.shiftRight_eq_div_pow,
        Nat.mod_eq_of_lt (by omega), Nat.mod_eq_of_lt (by omega)]
      omega
  · have ha0' : a < 0 := by omega
    by_cases hb0 : 0 ≤ b
    · rw [varI_spec_neg a ha ha0', varI_spec_nonneg b hb0 hb]
      apply beBytes_dom_head
      have hma : a.natAbs - 1 < 2 ^ 63 := by omega
      have hA := varI_head_bounds (a.natAbs - 1) hma
      have hB := varI_head_bounds b.toNat (by omega)
      have hla := varICode_le_eight (a.natAbs - 1)
      have hlb := varICode_le_eight b.toNat
      rw [Nat.shiftRight_eq_div_pow, Nat.shiftRight_eq_div_pow,
        Nat.mod_eq_of_lt (by omega), Nat.mod_eq_of_lt (by omega)]
      omega
    · have hb0' : b < 0 := by omega
      have hbge : -(2 ^ 63) ≤ b := by omega
      rw [varI_spec_neg a ha ha0', varI_spec_neg b hbge hb0']
      have hma : a.natAbs - 1 < 2 ^ 63 := by omega
      have hmb : b.natAbs - 1 < 2 ^ 63 := by omega
      have hmlt : b.natAbs - 1 < a.natAbs - 1 := by omega
      have hmono : varICode (b.natAbs - 1) ≤ varICode (a.natAbs - 1) :=
        varICode_mono (Nat.le_of_lt hmlt)
      rcases Nat.eq_or_lt_of_le hmono with heq | hlt
      · rw [heq]
        apply beBytes_dom_of_lt
        · have h1 : varIPosVal (b.natAbs - 1) < varIPosVal (a.natAbs - 1) :=
            varIPosVal_lt hmlt heq
          have h2 := (varICode_bounds (a.natAbs - 1) hma).1
          omega
        · have hp : (0 : Nat) < 2 ^ (8 * (varICode (a.natAbs - 1) + 1)) :=
            Nat.pos_pow_of_pos _ (by norm_num)
          omega
      · apply beBytes_dom_head
        have hA := varI_head_bounds (a.natAbs - 1) hma
        have hB := varI_head_bounds (b.natAbs - 1) hmb
        have hla := varICode_le_eight (a.natAbs - 1)
        have hlb := varICode_le_eight (b.natAbs - 1)
        rw [Nat.shiftRight_eq_div_pow, Nat.shiftRight_eq_div_pow,
          Nat.mod_eq_of_lt (by omega), Nat.mod_eq_of_lt (by omega)]
        omega

/-! ### Fixed-width signed integers -/

theorem xor_high_bit {n x : Nat} (hx : x < 2 ^ n) : x ^^^ 2 ^ n = 2 ^ n + x := by
  have h := xor_two_pow_mul_add hx 1
  rw [Nat.mul_one] at h
  rw [Nat.xor_comm, h]

theorem high_bit_xor {n x : Nat} (hx : x < 2 ^ n) : (2 ^ n + x) ^^^ 2 ^ n = x := by
  rw [← xor_high_bit hx, Nat.xor_comm x, Nat.xor_assoc, Nat.xor_comm x, ← Nat.xor_assoc,
    Nat.xor_self, Nat.zero_xor]

theorem toU_sign_flip {w : Nat} (hw : 0 < w) (v : Int) (h0 : -(2 ^ (w - 1)) ≤ v)
    (h1 : v < 2 ^ (w - 1)) (hmin : toU w (-(2 ^ (w - 1))) = 2 ^ (w - 1)) :
    toU w v ^^^ toU w (-(2 ^ (w - 1))) = (v + 2 ^ (w - 1)).toNat := by
  rw [hmin]
  have hPI : ((2 ^ (w - 1) : Nat) : Int) = (2 : Int) ^ (w - 1) := by push_cast; ring
  have hsplitI : (2 : Int) ^ w = 2 ^ (w - 1) * 2 := by
    rw [← pow_succ]
    congr 1
    omega
  have hp : (0 : Int) < 2 ^ (w - 1) := by positivity
  rcases le_or_lt 0 v with hv | hv
  · have htu : toU w v = v.toNat := by
      unfold toU
      have hmod : v % (2 : Int) ^ w = v := Int.emod_eq_of_lt hv (by omega)
      rw [hmod]
    rw [htu, xor_high_bit (show v.toNat < 2 ^ (w - 1) from by omega)]
    omega
  · have htu : toU w v = (v + 2 ^ w).toNat := by
      unfold toU
      have hmod : v % (2 : Int) ^ w = v + 2 ^ w := by
        calc v % (2 : Int) ^ w = (v + 2 ^ w * 1) % 2 ^ w := (Int.add_mul_emod_self_left v (2 ^ w) 1).symm
          _ = v + 2 ^ w := by
              rw [mul_one]
              exact Int.emod_eq_of_lt (by omega) (by omega)
      rw [hmod]
    rw [htu, show (v + 2 ^ w).toNat = 2 ^ (w - 1) + (v + 2 ^ (w - 1)).toNat from by omega,
      high_bit_xor (show (v + 2 ^ (w - 1)).toNat < 2 ^ (w - 1) from by omega)]

theorem emit_i8_spec (v : Int) (h0 : -(2 ^ 7) ≤ v) (h1 : v < 2 ^ 7) :
    emit_i8 v = beBytes 1 ((v + 2 ^ 7).toNat) := by
  unfold emit_i8 write_u8
  have h : toU 8 v ^^^ toU 8 (-(2 ^ 7)) = (v + 2 ^ 7).toNat :=
    toU_sign_flip (by norm_num) v h0 h1 (by decide)
  rw [h]

theorem emit_i16_spec (v : Int) (h0 : -(2 ^ 15) ≤ v) (h1 : v < 2 ^ 15) :
    emit_i16 v = beBytes 2 ((v + 2 ^ 15).toNat) := by
  unfold emit_i16 write_be_u16
  have h : toU 16 v ^^^ toU 16 (-(2 ^ 15)) = (v + 2 ^ 15).toNat :=
    toU_sign_flip (by norm_num) v h0 h1 (by decide)
  rw [h]

theorem emit_i32_spec (v : Int) (h0 : -(2 ^ 31) ≤ v) (h1 : v < 2 ^ 31) :
    emit_i32 v = beBytes 4 ((v + 2 ^ 31).toNat) := by
  unfold emit_i32 write_be_u32
  have h : toU 32 v ^^^ toU 32 (-(2 ^ 31)) = (v + 2 ^ 31).toNat :=
    toU_sign_flip (by norm_num) v h0 h1 (by decide)
  rw [h]

theorem emit_i64_spec (v : Int) (h0 : -(2 ^ 63) ≤ v) (h1 : v < 2 ^ 63) :
    emit_i64 v = beBytes 8 ((v + 2 ^ 63).toNat) := by
  unfold emit_i64 write_be_u64
  have h : toU 64 v ^^^ toU 64 (-(2 ^ 63)) = (v + 2 ^ 63).toNat :=
    toU_sign_flip (by norm_num) v h0 h1 (by decide)
  rw [h]

/-! ### Floats -/

theorem emit_f32_spec (bits : Nat) (hb : bits < 2 ^ 32) :
    emit_f32 bits = beBytes 4 (if bits < 2 ^ 31 then bits + 2 ^ 31 else 2 ^ 32 - 1 - bits) := by
  unfold emit_f32 toI write_be_u32
  by_cases hs : bits < 2 ^ 31
  · rw [if_pos (show bits < 2 ^ (32 - 1) from hs), if_pos hs]
    rw [int_shiftRight_eq_zero (by positivity) (by exact_mod_cast hs)]
    rw [show toU 32 0 = 0 from by decide,
      show ((0 : Nat) ||| toU 32 (-(2 ^ 31))) = 2 ^ 31 from by decide, xor_high_bit hs]
    congr 1
    omega
  · rw [if_neg (show ¬bits < 2 ^ (32 - 1) from hs), if_neg hs]
    have hneg : ((bits : Int) - 2 ^ 32) < 0 := by
      have : (bits : Int) < 2 ^ 32 := by exact_mod_cast hb
      omega
    have hge : -(2 ^ 31) ≤ (bits : Int) - 2 ^ 32 := by
      have : (2 ^ 31 : Int) ≤ (bits : Nat) := by exact_mod_cast Nat.le_of_not_lt hs
      omega
    rw [int_shiftRight_eq_neg_one hge hneg]
    rw [show toU 32 (-1) = 2 ^ 32 - 1 from by decide,
      show ((2 ^ 32 - 1 : Nat) ||| toU 32 (-(2 ^ 31))) = 2 ^ 32 - 1 from by decide,
      xor_two_pow_sub_one hb]

theorem emit_f64_spec (bits : Nat) (hb : bits < 2 ^ 64) :
    emit_f64 bits = beBytes 8 (if bits < 2 ^ 63 then bits + 2 ^ 63 else 2 ^ 64 - 1 - bits) := by
  unfold emit_f64 toI write_be_u64
  by_cases hs : bits < 2 ^ 63
  · rw [if_pos (show bits < 2 ^ (64 - 1) from hs), if_pos hs]
    rw [int_shiftRight_eq_zero (by positivity) (by exact_mod_cast hs)]
    rw [show toU 64 0 = 0 from by decide,
      show ((0 : Nat) ||| toU 64 (-(2 ^ 63))) = 2 ^ 63 from by decide, xor_high_bit hs]
    congr 1
    omega
  · rw [if_neg (show ¬bits < 2 ^ (64 - 1) from hs), if_neg hs]
    have hneg : ((bits : Int) - 2 ^ 64) < 0 := by
      have : (bits : Int) < 2 ^ 64 := by exact_mod_cast hb
      omega
    have hge : -(2 ^ 63) ≤ (bits : Int) - 2 ^ 64 := by
      have : (2 ^ 63 : Int) ≤ (bits : Nat) := by exact_mod_cast Nat.le_of_not_lt hs
      omega
    rw [int_shiftRight_eq_neg_one hge hneg]
    rw [show toU 64 (-1) = 2 ^ 64 - 1 from by decide,
      show ((2 ^ 64 - 1 : Nat) ||| toU 64 (-(2 ^ 63))) = 2 ^ 64 - 1 from by decide,
      xor_two_pow_sub_one hb]

theorem floatTotalCmp_eq {n a b : Nat} (h : floatTotalCmp n a b = .eq) : a = b := by
  unfold floatTotalCmp at h
  split_ifs at h with h1 h2 h3
  · rw [Nat.compare_eq_eq] at h
    exact h
  · rw [Nat.compare_eq_eq] at h
    exact h.symm

theorem f32_dom {a b : Nat} (ha : a < 2 ^ 32) (hb : b < 2 ^ 32)
    (h : floatTotalCmp 32 a b = .lt) : lexDom (emit_f32 a) (emit_f32 b) := by
  rw [emit_f32_spec a ha, emit_f32_spec b hb]
  unfold floatTotalCmp at h
  split_ifs at h with h1 h2 h3
  · rw [Nat.compare_eq_lt] at h
    refine beBytes_dom_of_lt ?_ ?_ <;> split_ifs <;> omega
  · rw [Nat.compare_eq_lt] at h
    refine beBytes_dom_of_lt ?_ ?_ <;> split_ifs <;> omega
  · refine beBytes_dom_of_lt ?_ ?_ <;> split_ifs <;> omega

theorem f64_dom {a b : Nat} (ha : a < 2 ^ 64) (hb : b < 2 ^ 64)
    (h : floatTotalCmp 64 a b = .lt) : lexDom (emit_f64 a) (emit_f64 b) := by
  rw [emit_f64_spec a ha, emit_f64_spec b hb]
  unfold floatTotalCmp at h
  split_ifs at h with h1 h2 h3
  · rw [Nat.compare_eq_lt] at h
    refine beBytes_dom_of_lt ?_ ?_ <;> split_ifs <;> omega
  · rw [Nat.compare_eq_lt] at h
    refine beBytes_dom_of_lt ?_ ?_ <;> split_ifs <;> omega
  · refine beBytes_dom_of_lt ?_ ?_ <;> split_ifs <;> omega

/-! ### UTF-8 order preservation -/

theorem utf8_dom {c d : Nat} (h : c < d) :
    lexDom (utf8EncodeChar c) (utf8EncodeChar d) := by
  unfold utf8EncodeChar
  by_cases hc1 : c < 0x80
  · rw [if_pos hc1]
    by_cases hd1 : d < 0x80
    · rw [if_pos hd1]
      exact lexDom.head h
    · rw [if_neg hd1]
      by_cases hd2 : d < 0x800
      · rw [if_pos hd2]
        exact lexDom.head (by omega)
      · rw [if_neg hd2]
        by_cases hd3 : d < 0x10000
        · rw [if_pos hd3]
          exact lexDom.head (by omega)
        · rw [if_neg hd3]
          exact lexDom.head (by omega)
  · rw [if_neg hc1, if_neg (show ¬d < 0x80 from by omega)]
    by_cases hc2 : c < 0x800
    · rw [if_pos hc2]
      by_cases hd2 : d < 0x800
      · rw [if_pos hd2]
        rcases Nat.lt_trichotomy (c / 0x40) (d / 0x40) with h1 | h1 | h1
        · exact lexDom.head (by omega)
        · rw [show 0xC0 + c / 0x40 = 0xC0 + d / 0x40 from by omega]
          exact lexDom.cons (lexDom.head (by omega))
        · exact absurd h1 (by omega)
      · rw [if_neg hd2]
        by_cases hd3 : d < 0x10000
        · rw [if_pos hd3]
          exact lexDom.head (by omega)
        · rw [if_neg hd3]
          exact lexDom.head (by omega)
    · rw [if_neg hc2, if_neg (show ¬d < 0x800 from by omega)]
      by_cases hc3 : c < 0x10000
      · rw [if_pos hc3]
        by_cases hd3 : d < 0x10000
        · rw [if_pos hd3]
          rcases Nat.lt_trichotomy (c / 0x1000) (d / 0x1000) with h1 | h1 | h1
          · exact lexDom.head (by omega)
          · rw [show 0xE0 + c / 0x1000 = 0xE0 + d / 0x1000 from by omega]
            rcases Nat.lt_trichotomy (c / 0x40 % 0x40) (d / 0x40 % 0x40) with h2 | h2 | h2
            · exact lexDom.cons (lexDom.head (by omega))
            · rw [show 0x80 + c / 0x40 % 0x40 = 0x80 + d / 0x40 % 0x40 from by omega]
              exact lexDom.cons (lexDom.cons (lexDom.head (by omega)))
            · exact absurd h2 (by omega)
          · exact absurd h1 (by omega)
        · rw [if_neg hd3]
          exact lexDom.head (by omega)
      · rw [if_neg hc3, if_neg (show ¬d < 0x10000 from by omega)]
        rcases Nat.lt_trichotomy (c / 0x40000) (d / 0x40000) with h1 | h1 | h1
        · exact lexDom.head (by omega)
        · rw [show 0xF0 + c / 0x40000 = 0xF0 + d / 0x40000 from by omega]
          rcases Nat.lt_trichotomy (c / 0x1000 % 0x40) (d / 0x1000 % 0x40) with h2 | h2 | h2
          · exact lexDom.cons (lexDom.head (by omega))
          · rw [show 0x80 + c / 0x1000 % 0x40 = 0x80 + d / 0x1000 % 0x40 from by omega]
            rcases Nat.lt_trichotomy (c / 0x40 % 0x40) (d / 0x40 % 0x40) with h3 | h3 | h3
            · exact lexDom.cons (lexDom.cons (lexDom.head (by omega)))
            · rw [show 0x80 + c / 0x40 % 0x40 = 0x80 + d / 0x40 % 0x40 from by omega]
              exact lexDom.cons (lexDom.cons (lexDom.cons (lexDom.head (by omega))))
            · exact absurd h3 (by omega)
          · exact absurd h2 (by omega)
        · exact absurd h1 (by omega)

theorem utf8_head_pos {c : Nat} (hc : c ≠ 0) :
    ∃ h t, utf8EncodeChar c = h :: t ∧ 0 < h := by
  unfold utf8EncodeChar
  split_ifs with h1 h2 h3
  · exact ⟨c, [], rfl, by omega⟩
  · exact ⟨_, _, rfl, by omega⟩
  · exact ⟨_, _, rfl, by omega⟩
  · exact ⟨_, _, rfl, by omega⟩

/-- A string strictly below another (by code points, both `NUL`-free on the
right) has a byte-wise dominating encoding, terminator included. -/
theorem emit_str_dom : ∀ (s t : List Nat), (∀ c ∈ t, c ≠ 0) → lexCmp s t = .lt →
    lexDom (emit_str s) (emit_str t) := by
  intro s
  induction s with
  | nil =>
    intro t hnul hlt
    cases t with
    | nil => simp [lexCmp] at hlt
    | cons d ds =>
      obtain ⟨h, tl, he, hpos⟩ := utf8_head_pos (hnul d (by simp))
      show lexDom (strBytes [] ++ write_u8 0) (strBytes (d :: ds) ++ write_u8 0)
      simp only [strBytes, List.nil_append, he, List.cons_append]
      exact lexDom.head hpos
  | cons c cs ih =>
    intro t hnul hlt
    cases t with
    | nil => simp [lexCmp] at hlt
    | cons d ds =>
      rcases Nat.lt_trichotomy c d with hcd | hcd | hcd
      · show lexDom ((utf8EncodeChar c ++ strBytes cs) ++ write_u8 0)
          ((utf8EncodeChar d ++ strBytes ds) ++ write_u8 0)
        rw [List.append_assoc, List.append_assoc]
        exact lexDom_append (utf8_dom hcd) _ _
      · subst hcd
        have hlt2 : lexCmp cs ds = .lt := by
          simpa [lexCmp, Nat.compare_eq_eq.mpr rfl] using hlt
        have hrec := ih ds (fun x hx => hnul x (by simp [hx])) hlt2
        show lexDom ((utf8EncodeChar c ++ strBytes cs) ++ write_u8 0)
          ((utf8EncodeChar c ++ strBytes ds) ++ write_u8 0)
        rw [List.append_assoc, List.append_assoc]
        exact lexDom_append_left _ hrec
      · rw [show lexCmp (c :: cs) (d :: ds) = .gt from by
          simp [lexCmp, Nat.compare_eq_gt.mpr hcd]] at hlt
        exact absurd hlt (by decide)

/-! ### Typing shape lemmas -/


theorem hasTy_u8 {v : Val} (h : hasTy v .tU8 = true) :
    ∃ n, v = .vU8 n ∧ n < 2 ^ 8 := by
  cases v with
  | vU8 n => exact ⟨n, rfl, of_decide_eq_true h⟩
  | vU16 n => exact Bool.noConfusion h
  | vU32 n => exact Bool.noConfusion h
  | vU64 n => exact Bool.noConfusion h
  | vVarU n => exact Bool.noConfusion h
  | vI8 n => exact Bool.noConfusion h
  | vI16 n => exact Bool.noConfusion h
  | vI32 n => exact Bool.noConfusion h
  | vI64 n => exact Bool.noConfusion h
  | vVarI n => exact Bool.noConfusion h
  | vF32 n => exact Bool.noConfusion h
  | vF64 n => exact Bool.noConfusion h
  | vBool b => exact Bool.noConfusion h
  | vChar c => exact Bool.noConfusion h
  | vStr cs => exact Bool.noConfusion h
  | vNone => exact Bool.noConfusion h
  | vSome w => exact Bool.noConfusion h
  | vTup vs => exact Bool.noConfusion h
  | vSum tag fields => exact Bool.noConfusion h

theorem hasTy_u16 {v : Val} (h : hasTy v .tU16 = true) :
    ∃ n, v = .vU16 n ∧ n < 2 ^ 16 := by
  cases v with
  | vU8 n => exact Bool.noConfusion h
  | vU16 n => exact ⟨n, rfl, of_decide_eq_true h⟩
  | vU32 n => exact Bool.noConfusion h
  | vU64 n => exact Bool.noConfusion h
  | vVarU n => exact Bool.noConfusion h
  | vI8 n => exact Bool.noConfusion h
  | vI16 n => exact Bool.noConfusion h
  | vI32 n => exact Bool.noConfusion h
  | vI64 n => exact Bool.noConfusion h
  | vVarI n => exact Bool.noConfusion h
  | vF32 n => exact Bool.noConfusion h
  | vF64 n => exact Bool.noConfusion h
  | vBool b => exact Bool.noConfusion h
  | vChar c => exact Bool.noConfusion h
  | vStr cs => exact Bool.noConfusion h
  | vNone => exact Bool.noConfusion h
  | vSome w => exact Bool.noConfusion h
  | vTup vs => exact Bool.noConfusion h
  | vSum tag fields => exact Bool.noConfusion h

theorem hasTy_u32 {v : Val} (h : hasTy v .tU32 = true) :
    ∃ n, v = .vU32 n ∧ n < 2 ^ 32 := by
  cases v with
  | vU8 n => exact Bool.noConfusion h
  | vU16 n => exact Bool.noConfusion h
  | vU32 n => exact ⟨n, rfl, of_decide_eq_true h⟩
  | vU64 n => exact Bool.noConfusion h
  | vVarU n => exact Bool.noConfusion h
  | vI8 n => exact Bool.noConfusion h
  | vI16 n => exact Bool.noConfusion h
  | vI32 n => exact Bool.noConfusion h
  | vI64 n => exact Bool.noConfusion h
  | vVarI n => exact Bool.noConfusion h
  | vF32 n => exact Bool.noConfusion h
  | vF64 n => exact Bool.noConfusion h
  | vBool b => exact Bool.noConfusion h
  | vChar c => exact Bool.noConfusion h
  | vStr cs => exact Bool.noConfusion h
  | vNone => exact Bool.noConfusion h
  | vSome w => exact Bool.noConfusion h
  | vTup vs => exact Bool.noConfusion h
  | vSum tag fields => exact Bool.noConfusion h

theorem hasTy_u64 {v : Val} (h : hasTy v .tU64 = true) :
    ∃ n, v = .vU64 n ∧ n < 2 ^ 64 := by
  cases v with
  | vU8 n => exact Bool.noConfusion h
  | vU16 n => exact Bool.noConfusion h
  | vU32 n => exact Bool.noConfusion h
  | vU64 n => exact ⟨n, rfl, of_decide_eq_true h⟩
  | vVarU n => exact Bool.noConfusion h
  | vI8 n => exact Bool.noConfusion h
  | vI16 n => exact Bool.noConfusion h
  | vI32 n => exact Bool.noConfusion h
  | vI64 n => exact Bool.noConfusion h
  | vVarI n => exact Bool.noConfusion h
  | vF32 n => exact Bool.noConfusion h
  | vF64 n => exact Bool.noConfusion h
  | vBool b => exact Bool.noConfusion h
  | vChar c => exact Bool.noConfusion h
  | vStr cs => exact Bool.noConfusion h
  | vNone => exact Bool.noConfusion h
  | vSome w => exact Bool.noConfusion h
  | vTup vs => exact Bool.noConfusion h
  | vSum tag fields => exact Bool.noConfusion h

theorem hasTy_varU {v : Val} (h : hasTy v .tVarU = true) :
    ∃ n, v = .vVarU n ∧ n < 2 ^ 64 := by
  cases v with
  | vU8 n => exact Bool.noConfusion h
  | vU16 n => exact Bool.noConfusion h
  | vU32 n => exact Bool.noConfusion h
  | vU64 n => exact Bool.noConfusion h
  | vVarU n => exact ⟨n, rfl, of_decide_eq_true h⟩
  | vI8 n => exact Bool.noConfusion h
  | vI16 n => exact Bool.noConfusion h
  | vI32 n => exact Bool.noConfusion h
  | vI64 n => exact Bool.noConfusion h
  | vVarI n => exact Bool.noConfusion h
  | vF32 n => exact Bool.noConfusion h
  | vF64 n => exact Bool.noConfusion h
  | vBool b => exact Bool.noConfusion h
  | vChar c => exact Bool.noConfusion h
  | vStr cs => exact Bool.noConfusion h
  | vNone => exact Bool.noConfusion h
  | vSome w => exact Bool.noConfusion h
  | vTup vs => exact Bool.noConfusion h
  | vSum tag fields => exact Bool.noConfusion h

theorem hasTy_i8 {v : Val} (h : hasTy v .tI8 = true) :
    ∃ n, v = .vI8 n ∧ -(2 ^ 7) ≤ n ∧ n < 2 ^ 7 := by
  cases v with
  | vU8 n => exact Bool.noConfusion h
  | vU16 n => exact Bool.noConfusion h
  | vU32 n => exact Bool.noConfusion h
  | vU64 n => exact Bool.noConfusion h
  | vVarU n => exact Bool.noConfusion h
  | vI8 n => exact ⟨n, rfl, of_decide_eq_true h⟩
  | vI16 n => exact Bool.noConfusion h
  | vI32 n => exact Bool.noConfusion h
  | vI64 n => exact Bool.noConfusion h
  | vVarI n => exact Bool.noConfusion h
  | vF32 n => exact Bool.noConfusion h
  | vF64 n => exact Bool.noConfusion h
  | vBool b => exact Bool.noConfusion h
  | vChar c => exact Bool.noConfusion h
  | vStr cs => exact Bool.noConfusion h
  | vNone => exact Bool.noConfusion h
  | vSome w => exact Bool.noConfusion h
  | vTup vs => exact Bool.noConfusion h
  | vSum tag fields => exact Bool.noConfusion h

theorem hasTy_i16 {v : Val} (h : hasTy v .tI16 = true) :
    ∃ n, v = .vI16 n ∧ -(2 ^ 15) ≤ n ∧ n < 2 ^ 15 := by
  cases v with
  | vU8 n => exact Bool.noConfusion h
  | vU16 n => exact Bool.noConfusion h
  | vU32 n => exact Bool.noConfusion h
  | vU64 n => exact Bool.noConfusion h
  | vVarU n => exact Bool.noConfusion h
  | vI8 n => exact Bool.noConfusion h
  | vI16 n => exact ⟨n, rfl, of_decide_eq_true h⟩
  | vI32 n => exact Bool.noConfusion h
  | vI64 n => exact Bool.noConfusion h
  | vVarI n => exact Bool.noConfusion h
  | vF32 n => exact Bool.noConfusion h
  | vF64 n => exact Bool.noConfusion h
  | vBool b => exact Bool.noConfusion h
  | vChar c => exact Bool.noConfusion h
  | vStr cs => exact Bool.noConfusion h
  | vNone => exact Bool.noConfusion h
  | vSome w => exact Bool.noConfusion h
  | vTup vs => exact Bool.noConfusion h
  | vSum tag fields => exact Bool.noConfusion h

theorem hasTy_i32 {v : Val} (h : hasTy v .tI32 = true) :
    ∃ n, v = .vI32 n ∧ -(2 ^ 31) ≤ n ∧ n < 2 ^ 31 := by
  cases v with
  | vU8 n => exact Bool.noConfusion h
  | vU16 n => exact Bool.noConfusion h
  | vU32 n => exact Bool.noConfusion h
  | vU64 n => exact Bool.noConfusion h
  | vVarU n => exact Bool.noConfusion h
  | vI8 n => exact Bool.noConfusion h
  | vI16 n => exact Bool.noConfusion h
  | vI32 n => exact ⟨n, rfl, of_decide_eq_true h⟩
  | vI64 n => exact Bool.noConfusion h
  | vVarI n => exact Bool.noConfusion h
  | vF32 n => exact Bool.noConfusion h
  | vF64 n => exact Bool.noConfusion h
  | vBool b => exact Bool.noConfusion h
  | vChar c => exact Bool.noConfusion h
  | vStr cs => exact Bool.noConfusion h
  | vNone => exact Bool.noConfusion h
  | vSome w => exact Bool.noConfusion h
  | vTup vs => exact Bool.noConfusion h
  | vSum tag fields => exact Bool.noConfusion h

theorem hasTy_i64 {v : Val} (h : hasTy v .tI64 = true) :
    ∃ n, v = .vI64 n ∧ -(2 ^ 63) ≤ n ∧ n < 2 ^ 63 := by
  cases v with
  | vU8 n => exact Bool.noConfusion h
  | vU16 n => exact Bool.noConfusion h
  | vU32 n => exact Bool.noConfusion h
  | vU64 n => exact Bool.noConfusion h
  | vVarU n => exact Bool.noConfusion h
  | vI8 n => exact Bool.noConfusion h
  | vI16 n => exact Bool.noConfusion h
  | vI32 n => exact Bool.noConfusion h
  | vI64 n => exact ⟨n, rfl, of_decide_eq_true h⟩
  | vVarI n => exact Bool.noConfusion h
  | vF32 n => exact Bool.noConfusion h
  | vF64 n => exact Bool.noConfusion h
  | vBool b => exact Bool.noConfusion h
  | vChar c => exact Bool.noConfusion h
  | vStr cs => exact Bool.noConfusion h
  | vNone => exact Bool.noConfusion h
  | vSome w => exact Bool.noConfusion h
  | vTup vs => exact Bool.noConfusion h
  | vSum tag fields => exact Bool.noConfusion h

theorem hasTy_varI {v : Val} (h : hasTy v .tVarI = true) :
    ∃ n, v = .vVarI n ∧ -(2 ^ 63) ≤ n ∧ n < 2 ^ 63 := by
  cases v with
  | vU8 n => exact Bool.noConfusion h
  | vU16 n => exact Bool.noConfusion h
  | vU32 n => exact Bool.noConfusion h
  | vU64 n => exact Bool.noConfusion h
  | vVarU n => exact Bool.noConfusion h
  | vI8 n => exact Bool.noConfusion h
  | vI16 n => exact Bool.noConfusion h
  | vI32 n => exact Bool.noConfusion h
  | vI64 n => exact Bool.noConfusion h
  | vVarI n => exact ⟨n, rfl, of_decide_eq_true h⟩
  | vF32 n => exact Bool.noConfusion h
  | vF64 n => exact Bool.noConfusion h
  | vBool b => exact Bool.noConfusion h
  | vChar c => exact Bool.noConfusion h
  | vStr cs => exact Bool.noConfusion h
  | vNone => exact Bool.noConfusion h
  | vSome w => exact Bool.noConfusion h
  | vTup vs => exact Bool.noConfusion h
  | vSum tag fields => exact Bool.noConfusion h

theorem hasTy_f32 {v : Val} (h : hasTy v .tF32 = true) :
    ∃ n, v = .vF32 n ∧ n < 2 ^ 32 := by
  cases v with
  | vU8 n => exact Bool.noConfusion h
  | vU16 n => exact Bool.noConfusion h
  | vU32 n => exact Bool.noConfusion h
  | vU64 n => exact Bool.noConfusion h
  | vVarU n => exact Bool.noConfusion h
  | vI8 n => exact Bool.noConfusion h
  | vI16 n => exact Bool.noConfusion h
  | vI32 n => exact Bool.noConfusion h
  | vI64 n => exact Bool.noConfusion h
  | vVarI n => exact Bool.noConfusion h
  | vF32 n => exact ⟨n, rfl, of_decide_eq_true h⟩
  | vF64 n => exact Bool.noConfusion h
  | vBool b => exact Bool.noConfusion h
  | vChar c => exact Bool.noConfusion h
  | vStr cs => exact Bool.noConfusion h
  | vNone => exact Bool.noConfusion h
  | vSome w => exact Bool.noConfusion h
  | vTup vs => exact Bool.noConfusion h
  | vSum tag fields => exact Bool.noConfusion h

theorem hasTy_f64 {v : Val} (h : hasTy v .tF64 = true) :
    ∃ n, v = .vF64 n ∧ n < 2 ^ 64 := by
  cases v with
  | vU8 n => exact Bool.noConfusion h
  | vU16 n => exact Bool.noConfusion h
  | vU32 n => exact Bool.noConfusion h
  | vU64 n => exact Bool.noConfusion h
  | vVarU n => exact Bool.noConfusion h
  | vI8 n => exact Bool.noConfusion h
  | vI16 n => exact Bool.noConfusion h
  | vI32 n => exact Bool.noConfusion h
  | vI64 n => exact Bool.noConfusion h
  | vVarI n => exact Bool.noConfusion h
  | vF32 n => exact Bool.noConfusion h
  | vF64 n => exact ⟨n, rfl, of_decide_eq_true h⟩
  | vBool b => exact Bool.noConfusion h
  | vChar c => exact Bool.noConfusion h
  | vStr cs => exact Bool.noConfusion h
  | vNone => exact Bool.noConfusion h
  | vSome w => exact Bool.noConfusion h
  | vTup vs => exact Bool.noConfusion h
  | vSum tag fields => exact Bool.noConfusion h

theorem hasTy_bool {v : Val} (h : hasTy v .tBool = true) :
    ∃ b, v = .vBool b := by
  cases v with
  | vU8 n => exact Bool.noConfusion h
  | vU16 n => exact Bool.noConfusion h
  | vU32 n => exact Bool.noConfusion h
  | vU64 n => exact Bool.noConfusion h
  | vVarU n => exact Bool.noConfusion h
  | vI8 n => exact Bool.noConfusion h
  | vI16 n => exact Bool.noConfusion h
  | vI32 n => exact Bool.noConfusion h
  | vI64 n => exact Bool.noConfusion h
  | vVarI n => exact Bool.noConfusion h
  | vF32 n => exact Bool.noConfusion h
  | vF64 n => exact Bool.noConfusion h
  | vBool b => exact ⟨b, rfl⟩
  | vChar c => exact Bool.noConfusion h
  | vStr cs => exact Bool.noConfusion h
  | vNone => exact Bool.noConfusion h
  | vSome w => exact Bool.noConfusion h
  | vTup vs => exact Bool.noConfusion h
  | vSum tag fields => exact Bool.noConfusion h

theorem hasTy_char {v : Val} (h : hasTy v .tChar = true) :
    ∃ c, v = .vChar c ∧ isScalar c = true := by
  cases v with
  | vU8 n => exact Bool.noConfusion h
  | vU16 n => exact Bool.noConfusion h
  | vU32 n => exact Bool.noConfusion h
  | vU64 n => exact Bool.noConfusion h
  | vVarU n => exact Bool.noConfusion h
  | vI8 n => exact Bool.noConfusion h
  | vI16 n => exact Bool.noConfusion h
  | vI32 n => exact Bool.noConfusion h
  | vI64 n => exact Bool.noConfusion h
  | vVarI n => exact Bool.noConfusion h
  | vF32 n => exact Bool.noConfusion h
  | vF64 n => exact Bool.noConfusion h
  | vBool b => exact Bool.noConfusion h
  | vChar c => exact ⟨c, rfl, h⟩
  | vStr cs => exact Bool.noConfusion h
  | vNone => exact Bool.noConfusion h
  | vSome w => exact Bool.noConfusion h
  | vTup vs => exact Bool.noConfusion h
  | vSum tag fields => exact Bool.noConfusion h

theorem hasTy_str {v : Val} (h : hasTy v .tStr = true) :
    ∃ cs, v = .vStr cs ∧ cs.all isScalar = true := by
  cases v with
  | vU8 n => exact Bool.noConfusion h
  | vU16 n => exact Bool.noConfusion h
  | vU32 n => exact Bool.noConfusion h
  | vU64 n => exact Bool.noConfusion h
  | vVarU n => exact Bool.noConfusion h
  | vI8 n => exact Bool.noConfusion h
  | vI16 n => exact Bool.noConfusion h
  | vI32 n => exact Bool.noConfusion h
  | vI64 n => exact Bool.noConfusion h
  | vVarI n => exact Bool.noConfusion h
  | vF32 n => exact Bool.noConfusion h
  | vF64 n => exact Bool.noConfusion h
  | vBool b => exact Bool.noConfusion h
  | vChar c => exact Bool.noConfusion h
  | vStr cs => exact ⟨cs, rfl, h⟩
  | vNone => exact Bool.noConfusion h
  | vSome w => exact Bool.noConfusion h
  | vTup vs => exact Bool.noConfusion h
  | vSum tag fields => exact Bool.noConfusion h

theorem hasTy_opt {v : Val} {t : Ty} (h : hasTy v (.tOpt t) = true) :
    v = .vNone ∨ ∃ w, v = .vSome w ∧ hasTy w t = true := by
  cases v with
  | vU8 n => exact Bool.noConfusion h
  | vU16 n => exact Bool.noConfusion h
  | vU32 n => exact Bool.noConfusion h
  | vU64 n => exact Bool.noConfusion h
  | vVarU n => exact Bool.noConfusion h
  | vI8 n => exact Bool.noConfusion h
  | vI16 n => exact Bool.noConfusion h
  | vI32 n => exact Bool.noConfusion h
  | vI64 n => exact Bool.noConfusion h
  | vVarI n => exact Bool.noConfusion h
  | vF32 n => exact Bool.noConfusion h
  | vF64 n => exact Bool.noConfusion h
  | vBool b => exact Bool.noConfusion h
  | vChar c => exact Bool.noConfusion h
  | vStr cs => exact Bool.noConfusion h
  | vNone => exact Or.inl rfl
  | vSome w => exact Or.inr ⟨w, rfl, h⟩
  | vTup vs => exact Bool.noConfusion h
  | vSum tag fields => exact Bool.noConfusion h

theorem hasTy_tup {v : Val} {ts : TyList} (h : hasTy v (.tTup ts) = true) :
    ∃ vs, v = .vTup vs ∧ hasTyList vs ts = true := by
  cases v with
  | vU8 n => exact Bool.noConfusion h
  | vU16 n => exact Bool.noConfusion h
  | vU32 n => exact Bool.noConfusion h
  | vU64 n => exact Bool.noConfusion h
  | vVarU n => exact Bool.noConfusion h
  | vI8 n => exact Bool.noConfusion h
  | vI16 n => exact Bool.noConfusion h
  | vI32 n => exact Bool.noConfusion h
  | vI64 n => exact Bool.noConfusion h
  | vVarI n => exact Bool.noConfusion h
  | vF32 n => exact Bool.noConfusion h
  | vF64 n => exact Bool.noConfusion h
  | vBool b => exact Bool.noConfusion h
  | vChar c => exact Bool.noConfusion h
  | vStr cs => exact Bool.noConfusion h
  | vNone => exact Bool.noConfusion h
  | vSome w => exact Bool.noConfusion h
  | vTup vs => exact ⟨vs, rfl, h⟩
  | vSum tag fields => exact Bool.noConfusion h

theorem hasTy_sum {v : Val} {vars : TyVariants} (h : hasTy v (.tSum vars) = true) :
    ∃ tag fields ts, v = .vSum tag fields ∧ tag < 2 ^ 64 ∧
      variantFields vars tag = some ts ∧ hasTyList fields ts = true := by
  cases v with
  | vU8 n => exact Bool.noConfusion h
  | vU16 n => exact Bool.noConfusion h
  | vU32 n => exact Bool.noConfusion h
  | vU64 n => exact Bool.noConfusion h
  | vVarU n => exact Bool.noConfusion h
  | vI8 n => exact Bool.noConfusion h
  | vI16 n => exact Bool.noConfusion h
  | vI32 n => exact Bool.noConfusion h
  | vI64 n => exact Bool.noConfusion h
  | vVarI n => exact Bool.noConfusion h
  | vF32 n => exact Bool.noConfusion h
  | vF64 n => exact Bool.noConfusion h
  | vBool b => exact Bool.noConfusion h
  | vChar c => exact Bool.noConfusion h
  | vStr cs => exact Bool.noConfusion h
  | vNone => exact Bool.noConfusion h
  | vSome w => exact Bool.noConfusion h
  | vTup vs => exact Bool.noConfusion h
  | vSum tag fields =>
    have h2 : (decide (tag < 2 ^ 64) &&
        (match variantFields vars tag with
          | some ts => hasTyList fields ts
          | none => false)) = true := h
    rw [Bool.and_eq_true] at h2
    obtain ⟨h3, h4⟩ := h2
    cases hv : variantFields vars tag with
    | none =>
      rw [hv] at h4
      exact Bool.noConfusion h4
    | some ts =>
      rw [hv] at h4
      exact ⟨tag, fields, ts, rfl, of_decide_eq_true h3, hv, h4⟩

theorem hasTyList_nil {vs : ValList} (h : hasTyList vs .tnil = true) : vs = .nil := by
  cases vs with
  | nil => rfl
  | cons a as => exact Bool.noConfusion h

theorem hasTyList_cons {vs : ValList} {t : Ty} {ts : TyList}
    (h : hasTyList vs (.tcons t ts) = true) :
    ∃ a as, vs = .cons a as ∧ hasTy a t = true ∧ hasTyList as ts = true := by
  cases vs with
  | nil => exact Bool.noConfusion h
  | cons a as =>
    have h2 : (hasTy a t && hasTyList as ts) = true := h
    rw [Bool.and_eq_true] at h2
    obtain ⟨h3, h4⟩ := h2
    exact ⟨a, as, rfl, h3, h4⟩

theorem floatTotalCmp_swap_lt {n a b : Nat} (hn : 0 < n) (ha : a < 2 ^ n) (hb : b < 2 ^ n)
    (h : floatTotalCmp n a b = .gt) : floatTotalCmp n b a = .lt := by
  have hsplit : (2 : Nat) ^ n = 2 ^ (n - 1) * 2 := by
    rw [← pow_succ]
    congr 1
    omega
  have hp : (0 : Nat) < 2 ^ (n - 1) := Nat.pos_pow_of_pos _ (by norm_num)
  have hda : a / 2 ^ (n - 1) < 2 := by
    rw [Nat.div_lt_iff_lt_mul hp]
    omega
  have hdb : b / 2 ^ (n - 1) < 2 := by
    rw [Nat.div_lt_iff_lt_mul hp]
    omega
  unfold floatTotalCmp at h ⊢
  rcases Nat.le_one_iff_eq_zero_or_eq_one.mp (Nat.le_of_lt_succ hda) with ha0 | ha1 <;>
    rcases Nat.le_one_iff_eq_zero_or_eq_one.mp (Nat.le_of_lt_succ hdb) with hb0 | hb1
  · rw [if_pos (ha0.trans hb0.symm)] at h
    rw [if_pos (hb0.trans ha0.symm), if_pos hb0]
    rw [if_pos ha0, Nat.compare_eq_gt] at h
    exact Nat.compare_eq_lt.mpr h
  · rw [if_neg (by rw [hb1, ha0]; decide), if_pos hb1]
  · rw [if_neg (by rw [ha1, hb0]; decide), if_pos ha1] at h
    exact absurd h (by decide)
  · rw [if_pos (ha1.trans hb1.symm), if_neg (by rw [ha1]; decide), Nat.compare_eq_gt] at h
    rw [if_pos (hb1.trans ha1.symm), if_neg (by rw [hb1]; decide)]
    exact Nat.compare_eq_lt.mpr h

/-! ### Order preservation for all supported shapes -/

theorem ordering_swap_gt {o : Ordering} (h : o.swap = .gt) : o = .lt := by
  cases o with
  | lt => rfl
  | eq => exact absurd h (by decide)
  | gt => exact absurd h (by decide)

theorem allNulFree {ds : List Nat} (h : (ds.all fun c => decide (c ≠ 0)) = true) :
    ∀ c ∈ ds, c ≠ 0 :=
  fun c hc => of_decide_eq_true (List.all_eq_true.mp h c hc)

theorem val_sizeOf_pos (a : Val) : 0 < sizeOf a := by
  cases a <;> simp <;> omega

theorem valList_sizeOf_pos (a : ValList) : 0 < sizeOf a := by
  cases a <;> simp <;> omega

theorem presAux : ∀ fuel : Nat,
    (∀ (T : Ty) (a b : Val), sizeOf a ≤ fuel → hasTy a T = true → hasTy b T = true →
      nulFree a = true → nulFree b = true →
      ((cmpVal a b = .lt → lexDom (encodeVal a) (encodeVal b)) ∧
       (cmpVal a b = .eq → encodeVal a = encodeVal b) ∧
       (cmpVal a b = .gt → lexDom (encodeVal b) (encodeVal a)))) ∧
    (∀ (Ts : TyList) (as bs : ValList), sizeOf as ≤ fuel → hasTyList as Ts = true →
      hasTyList bs Ts = true → nulFreeList as = true → nulFreeList bs = true →
      ((cmpValList as bs = .lt → lexDom (encodeValList as) (encodeValList bs)) ∧
       (cmpValList as bs = .eq → encodeValList as = encodeValList bs) ∧
       (cmpValList as bs = .gt → lexDom (encodeValList bs) (encodeValList as)))) := by
  intro fuel
  induction fuel with
  | zero =>
    constructor
    · intro T a b hs
      exact absurd hs (by have := val_sizeOf_pos a; omega)
    · intro Ts as bs hs
      exact absurd hs (by have := valList_sizeOf_pos as; omega)
  | succ fuel ih =>
    obtain ⟨ihV, ihL⟩ := ih
    constructor
    · intro T a b hs hta htb hna hnb
      cases T with
      | tU8 =>
        obtain ⟨x, rfl, hx⟩ := hasTy_u8 hta
        obtain ⟨y, rfl, hy⟩ := hasTy_u8 htb
        refine ⟨?_, ?_, ?_⟩ <;> intro hc
        · rw [show cmpVal (.vU8 x) (.vU8 y) = compare x y from rfl, Nat.compare_eq_lt] at hc
          exact beBytes_dom_of_lt hc (show y < 2 ^ (8 * 1) from by omega)
        · rw [show cmpVal (.vU8 x) (.vU8 y) = compare x y from rfl, Nat.compare_eq_eq] at hc
          rw [hc]
        · rw [show cmpVal (.vU8 x) (.vU8 y) = compare x y from rfl, Nat.compare_eq_gt] at hc
          exact beBytes_dom_of_lt hc (show x < 2 ^ (8 * 1) from by omega)
      | tU16 =>
        obtain ⟨x, rfl, hx⟩ := hasTy_u16 hta
        obtain ⟨y, rfl, hy⟩ := hasTy_u16 htb
        refine ⟨?_, ?_, ?_⟩ <;> intro hc
        · rw [show cmpVal (.vU16 x) (.vU16 y) = compare x y from rfl, Nat.compare_eq_lt] at hc
          exact beBytes_dom_of_lt hc (show y < 2 ^ (8 * 2) from by omega)
        · rw [show cmpVal (.vU16 x) (.vU16 y) = compare x y from rfl, Nat.compare_eq_eq] at hc
          rw [hc]
        · rw [show cmpVal (.vU16 x) (.vU16 y) = compare x y from rfl, Nat.compare_eq_gt] at hc
          exact beBytes_dom_of_lt hc (show x < 2 ^ (8 * 2) from by omega)
      | tU32 =>
        obtain ⟨x, rfl, hx⟩ := hasTy_u32 hta
        obtain ⟨y, rfl, hy⟩ := hasTy_u32 htb
        refine ⟨?_, ?_, ?_⟩ <;> intro hc
        · rw [show cmpVal (.vU32 x) (.vU32 y) = compare x y from rfl, Nat.compare_eq_lt] at hc
          exact beBytes_dom_of_lt hc (show y < 2 ^ (8 * 4) from by omega)
        · rw [show cmpVal (.vU32 x) (.vU32 y) = compare x y from rfl, Nat.compare_eq_eq] at hc
          rw [hc]
        · rw [show cmpVal (.vU32 x) (.vU32 y) = compare x y from rfl, Nat.compare_eq_gt] at hc
          exact beBytes_dom_of_lt hc (show x < 2 ^ (8 * 4) from by omega)
      | tU64 =>
        obtain ⟨x, rfl, hx⟩ := hasTy_u64 hta
        obtain ⟨y, rfl, hy⟩ := hasTy_u64 htb
        refine ⟨?_, ?_, ?_⟩ <;> intro hc
        · rw [show cmpVal (.vU64 x) (.vU64 y) = compare x y from rfl, Nat.compare_eq_lt] at hc
          exact beBytes_dom_of_lt hc (show y < 2 ^ (8 * 8) from by omega)
        · rw [show cmpVal (.vU64 x) (.vU64 y) = compare x y from rfl, Nat.compare_eq_eq] at hc
          rw [hc]
        · rw [show cmpVal (.vU64 x) (.vU64 y) = compare x y from rfl, Nat.compare_eq_gt] at hc
          exact beBytes_dom_of_lt hc (show x < 2 ^ (8 * 8) from by omega)
      | tVarU =>
        obtain ⟨x, rfl, hx⟩ := hasTy_varU hta
        obtain ⟨y, rfl, hy⟩ := hasTy_varU htb
        refine ⟨?_, ?_, ?_⟩ <;> intro hc
        · rw [show cmpVal (.vVarU x) (.vVarU y) = compare x y from rfl, Nat.compare_eq_lt] at hc
          exact varU_dom hc hy
        · rw [show cmpVal (.vVarU x) (.vVarU y) = compare x y from rfl, Nat.compare_eq_eq] at hc
          rw [hc]
        · rw [show cmpVal (.vVarU x) (.vVarU y) = compare x y from rfl, Nat.compare_eq_gt] at hc
          exact varU_dom hc hx
      | tI8 =>
        obtain ⟨x, rfl, hx⟩ := hasTy_i8 hta
        obtain ⟨y, rfl, hy⟩ := hasTy_i8 htb
        refine ⟨?_, ?_, ?_⟩ <;> intro hc
        · rw [show cmpVal (.vI8 x) (.vI8 y) = compare x y from rfl, compare_lt_iff_lt] at hc
          show lexDom (emit_i8 x) (emit_i8 y)
          rw [emit_i8_spec x hx.1 hx.2, emit_i8_spec y hy.1 hy.2]
          exact beBytes_dom_of_lt (by omega) (show (y + 2 ^ 7).toNat < 2 ^ (8 * 1) from by omega)
        · rw [show cmpVal (.vI8 x) (.vI8 y) = compare x y from rfl, compare_eq_iff_eq] at hc
          rw [hc]
        · rw [show cmpVal (.vI8 x) (.vI8 y) = compare x y from rfl, compare_gt_iff_gt] at hc
          show lexDom (emit_i8 y) (emit_i8 x)
          rw [emit_i8_spec x hx.1 hx.2, emit_i8_spec y hy.1 hy.2]
          exact beBytes_dom_of_lt (by omega) (show (x + 2 ^ 7).toNat < 2 ^ (8 * 1) from by omega)
      | tI16 =>
        obtain ⟨x, rfl, hx⟩ := hasTy_i16 hta
        obtain ⟨y, rfl, hy⟩ := hasTy_i16 htb
        refine ⟨?_, ?_, ?_⟩ <;> intro hc
        · rw [show cmpVal (.vI16 x) (.vI16 y) = compare x y from rfl, compare_lt_iff_lt] at hc
          show lexDom (emit_i16 x) (emit_i16 y)
          rw [emit_i16_spec x hx.1 hx.2, emit_i16_spec y hy.1 hy.2]
          exact beBytes_dom_of_lt (by omega) (show (y + 2 ^ 15).toNat < 2 ^ (8 * 2) from by omega)
        · rw [show cmpVal (.vI16 x) (.vI16 y) = compare x y from rfl, compare_eq_iff_eq] at hc
          rw [hc]
        · rw [show cmpVal (.vI16 x) (.vI16 y) = compare x y from rfl, compare_gt_iff_gt] at hc
          show lexDom (emit_i16 y) (emit_i16 x)
          rw [emit_i16_spec x hx.1 hx.2, emit_i16_spec y hy.1 hy.2]
          exact beBytes_dom_of_lt (by omega) (show (x + 2 ^ 15).toNat < 2 ^ (8 * 2) from by omega)
      | tI32 =>
        obtain ⟨x, rfl, hx⟩ := hasTy_i32 hta
        obtain ⟨y, rfl, hy⟩ := hasTy_i32 htb
        refine ⟨?_, ?_, ?_⟩ <;> intro hc
        · rw [show cmpVal (.vI32 x) (.vI32 y) = compare x y from rfl, compare_lt_iff_lt] at hc
          show lexDom (emit_i32 x) (emit_i32 y)
          rw [emit_i32_spec x hx.1 hx.2, emit_i32_spec y hy.1 hy.2]
          exact beBytes_dom_of_lt (by omega) (show (y + 2 ^ 31).toNat < 2 ^ (8 * 4) from by omega)
        · rw [show cmpVal (.vI32 x) (.vI32 y) = compare x y from rfl, compare_eq_iff_eq] at hc
          rw [hc]
        · rw [show cmpVal (.vI32 x) (.vI32 y) = compare x y from rfl, compare_gt_iff_gt] at hc
          show lexDom (emit_i32 y) (emit_i32 x)
          rw [emit_i32_spec x hx.1 hx.2, emit_i32_spec y hy.1 hy.2]
          exact beBytes_dom_of_lt (by omega) (show (x + 2 ^ 31).toNat < 2 ^ (8 * 4) from by omega)
      | tI64 =>
        obtain ⟨x, rfl, hx⟩ := hasTy_i64 hta
        obtain ⟨y, rfl, hy⟩ := hasTy_i64 htb
        refine ⟨?_, ?_, ?_⟩ <;> intro hc
        · rw [show cmpVal (.vI64 x) (.vI64 y) = compare x y from rfl, compare_lt_iff_lt] at hc
          show lexDom (emit_i64 x) (emit_i64 y)
          rw [emit_i64_spec x hx.1 hx.2, emit_i64_spec y hy.1 hy.2]
          exact beBytes_dom_of_lt (by omega) (show (y + 2 ^ 63).toNat < 2 ^ (8 * 8) from by omega)
        · rw [show cmpVal (.vI64 x) (.vI64 y) = compare x y from rfl, compare_eq_iff_eq] at hc
          rw [hc]
        · rw [show cmpVal (.vI64 x) (.vI64 y) = compare x y from rfl, compare_gt_iff_gt] at hc
          show lexDom (emit_i64 y) (emit_i64 x)
          rw [emit_i64_spec x hx.1 hx.2, emit_i64_spec y hy.1 hy.2]
          exact beBytes_dom_of_lt (by omega) (show (x + 2 ^ 63).toNat < 2 ^ (8 * 8) from by omega)
      | tVarI =>
        obtain ⟨x, rfl, hx⟩ := hasTy_varI hta
        obtain ⟨y, rfl, hy⟩ := hasTy_varI htb
        refine ⟨?_, ?_, ?_⟩ <;> intro hc
        · rw [show cmpVal (.vVarI x) (.vVarI y) = compare x y from rfl, compare_lt_iff_lt] at hc
          exact varI_dom hc hx.1 hy.2
        · rw [show cmpVal (.vVarI x) (.vVarI y) = compare x y from rfl, compare_eq_iff_eq] at hc
          rw [hc]
        · rw [show cmpVal (.vVarI x) (.vVarI y) = compare x y from rfl, compare_gt_iff_gt] at hc
          exact varI_dom hc hy.1 hx.2
      | tF32 =>
        obtain ⟨x, rfl, hx⟩ := hasTy_f32 hta
        obtain ⟨y, rfl, hy⟩ := hasTy_f32 htb
        refine ⟨?_, ?_, ?_⟩ <;> intro hc
        · exact f32_dom hx hy hc
        · rw [floatTotalCmp_eq hc]
        · exact f32_dom hy hx (floatTotalCmp_swap_lt (by norm_num) hx hy hc)
      | tF64 =>
        obtain ⟨x, rfl, hx⟩ := hasTy_f64 hta
        obtain ⟨y, rfl, hy⟩ := hasTy_f64 htb
        refine ⟨?_, ?_, ?_⟩ <;> intro hc
        · exact f64_dom hx hy hc
        · rw [floatTotalCmp_eq hc]
        · exact f64_dom hy hx (floatTotalCmp_swap_lt (by norm_num) hx hy hc)
      | tBool =>
        obtain ⟨x, rfl⟩ := hasTy_bool hta
        obtain ⟨y, rfl⟩ := hasTy_bool htb
        cases x <;> cases y <;> refine ⟨?_, ?_, ?_⟩ <;> intro hc <;>
          first
            | exact absurd hc (by decide)
            | rfl
            | exact lexDom.head (by decide)
      | tChar =>
        obtain ⟨x, rfl, hx⟩ := hasTy_char hta
        obtain ⟨y, rfl, hy⟩ := hasTy_char htb
        refine ⟨?_, ?_, ?_⟩ <;> intro hc
        · exact utf8_dom (Nat.compare_eq_lt.mp hc)
        · rw [Nat.compare_eq_eq.mp hc]
        · exact utf8_dom (Nat.compare_eq_gt.mp hc)
      | tStr =>
        obtain ⟨cs, rfl, hcs⟩ := hasTy_str hta
        obtain ⟨ds, rfl, hds⟩ := hasTy_str htb
        have hnc : ∀ c ∈ cs, c ≠ 0 := allNulFree hna
        have hnd : ∀ c ∈ ds, c ≠ 0 := allNulFree hnb
        refine ⟨?_, ?_, ?_⟩ <;> intro hc
        · exact emit_str_dom cs ds hnd hc
        · rw [(lexCmp_eq_iff cs ds).mp hc]
        · have hc2 : lexCmp cs ds = .gt := hc
          have hsw := lexCmp_swap cs ds
          rw [hc2] at hsw
          exact emit_str_dom ds cs hnc (ordering_swap_gt hsw.symm)
      | tOpt t =>
        rcases hasTy_opt hta with rfl | ⟨a2, rfl, hta2⟩ <;>
          rcases hasTy_opt htb with rfl | ⟨b2, rfl, htb2⟩
        · exact ⟨fun hc => absurd hc (by decide), fun hc => rfl, fun hc => absurd hc (by decide)⟩
        · refine ⟨?_, ?_, ?_⟩ <;> intro hc
          · exact lexDom.head (by decide)
          · have hc2 : Ordering.lt = Ordering.eq := hc
            exact absurd hc2 (by decide)
          · have hc2 : Ordering.lt = Ordering.gt := hc
            exact absurd hc2 (by decide)
        · refine ⟨?_, ?_, ?_⟩ <;> intro hc
          · have hc2 : Ordering.gt = Ordering.lt := hc
            exact absurd hc2 (by decide)
          · have hc2 : Ordering.gt = Ordering.eq := hc
            exact absurd hc2 (by decide)
          · exact lexDom.head (by decide)
        · have hsz : sizeOf a2 ≤ fuel := by
            simp at hs
            omega
          have IH := ihV t a2 b2 hsz hta2 htb2 hna hnb
          refine ⟨?_, ?_, ?_⟩ <;> intro hc
          · show lexDom (emit_bool true ++ encodeVal a2) (emit_bool true ++ encodeVal b2)
            exact lexDom_append_left _ (IH.1 hc)
          · show emit_bool true ++ encodeVal a2 = emit_bool true ++ encodeVal b2
            rw [IH.2.1 hc]
          · show lexDom (emit_bool true ++ encodeVal b2) (emit_bool true ++ encodeVal a2)
            exact lexDom_append_left _ (IH.2.2 hc)
      | tTup ts =>
        obtain ⟨vs1, rfl, h1⟩ := hasTy_tup hta
        obtain ⟨vs2, rfl, h2⟩ := hasTy_tup htb
        have hsz : sizeOf vs1 ≤ fuel := by
          simp at hs
          omega
        have IH := ihL ts vs1 vs2 hsz h1 h2 hna hnb
        exact ⟨fun hc => IH.1 hc, fun hc => IH.2.1 hc, fun hc => IH.2.2 hc⟩
      | tSum vars =>
        obtain ⟨t1, f1, ts1, rfl, htag1, hvf1, hf1⟩ := hasTy_sum hta
        obtain ⟨t2, f2, ts2, rfl, htag2, hvf2, hf2⟩ := hasTy_sum htb
        have hsz : sizeOf f1 ≤ fuel := by
          simp at hs
          omega
        have hdef : cmpVal (.vSum t1 f1) (.vSum t2 f2) =
            (match compare t1 t2 with
              | .eq => cmpValList f1 f2
              | o => o) := rfl
        refine ⟨?_, ?_, ?_⟩ <;> intro hc <;> rw [hdef] at hc <;>
          rcases hcc : compare t1 t2 with _ | _ | _ <;> rw [hcc] at hc
        · show lexDom (emit_var_u64 t1 ++ encodeValList f1) (emit_var_u64 t2 ++ encodeValList f2)
          exact lexDom_append (varU_dom (Nat.compare_eq_lt.mp hcc) htag2) _ _
        · have hteq := Nat.compare_eq_eq.mp hcc
          subst hteq
          rw [hvf1] at hvf2
          obtain rfl := Option.some.inj hvf2
          have IH := ihL ts1 f1 f2 hsz hf1 hf2 hna hnb
          show lexDom (emit_var_u64 t1 ++ encodeValList f1) (emit_var_u64 t1 ++ encodeValList f2)
          exact lexDom_append_left _ (IH.1 hc)
        · have hc2 : Ordering.gt = Ordering.lt := hc
          exact absurd hc2 (by decide)
        · have hc2 : Ordering.lt = Ordering.eq := hc
          exact absurd hc2 (by decide)
        · have hteq := Nat.compare_eq_eq.mp hcc
          subst hteq
          rw [hvf1] at hvf2
          obtain rfl := Option.some.inj hvf2
          have IH := ihL ts1 f1 f2 hsz hf1 hf2 hna hnb
          show emit_var_u64 t1 ++ encodeValList f1 = emit_var_u64 t1 ++ encodeValList f2
          rw [IH.2.1 hc]
        · have hc2 : Ordering.gt = Ordering.eq := hc
          exact absurd hc2 (by decide)
        · have hc2 : Ordering.lt = Ordering.gt := hc
          exact absurd hc2 (by decide)
        · have hteq := Nat.compare_eq_eq.mp hcc
          subst hteq
          rw [hvf1] at hvf2
          obtain rfl := Option.some.inj hvf2
          have IH := ihL ts1 f1 f2 hsz hf1 hf2 hna hnb
          show lexDom (emit_var_u64 t1 ++ encodeValList f2) (emit_var_u64 t1 ++ encodeValList f1)
          exact lexDom_append_left _ (IH.2.2 hc)
        · show lexDom (emit_var_u64 t2 ++ encodeValList f2) (emit_var_u64 t1 ++ encodeValList f1)
          exact lexDom_append (varU_dom (Nat.compare_eq_gt.mp hcc) htag1) _ _
    · intro Ts as bs hs htas htbs hnas hnbs
      cases Ts with
      | tnil =>
        obtain rfl := hasTyList_nil htas
        obtain rfl := hasTyList_nil htbs
        exact ⟨fun hc => absurd hc (by decide), fun hc => rfl, fun hc => absurd hc (by decide)⟩
      | tcons t ts =>
        obtain ⟨a, as2, rfl, hta, htas2⟩ := hasTyList_cons htas
        obtain ⟨b, bs2, rfl, htb, htbs2⟩ := hasTyList_cons htbs
        have hna2 : nulFree a = true ∧ nulFreeList as2 = true := by
          have h2 : (nulFree a && nulFreeList as2) = true := hnas
          rw [Bool.and_eq_true] at h2
          exact h2
        have hnb2 : nulFree b = true ∧ nulFreeList bs2 = true := by
          have h2 : (nulFree b && nulFreeList bs2) = true := hnbs
          rw [Bool.and_eq_true] at h2
          exact h2
        have hszV : sizeOf a ≤ fuel := by
          simp at hs
          omega
        have hszL : sizeOf as2 ≤ fuel := by
          simp at hs
          omega
        have IHV := ihV t a b hszV hta htb hna2.1 hnb2.1
        have IHL := ihL ts as2 bs2 hszL htas2 htbs2 hna2.2 hnb2.2
        have hdef : cmpValList (.cons a as2) (.cons b bs2) =
            (match cmpVal a b with
              | .eq => cmpValList as2 bs2
              | o => o) := rfl
        refine ⟨?_, ?_, ?_⟩ <;> intro hc <;> rw [hdef] at hc <;>
          rcases hcc : cmpVal a b with _ | _ | _ <;> rw [hcc] at hc
        · show lexDom (encodeVal a ++ encodeValList as2) (encodeVal b ++ encodeValList bs2)
          exact lexDom_append (IHV.1 hcc) _ _
        · show lexDom (encodeVal a ++ encodeValList as2) (encodeVal b ++ encodeValList bs2)
          rw [IHV.2.1 hcc]
          exact lexDom_append_left _ (IHL.1 hc)
        · have hc2 : Ordering.gt = Ordering.lt := hc
          exact absurd hc2 (by decide)
        · have hc2 : Ordering.lt = Ordering.eq := hc
          exact absurd hc2 (by decide)
        · show encodeVal a ++ encodeValList as2 = encodeVal b ++ encodeValList bs2
          rw [IHV.2.1 hcc, IHL.2.1 hc]
        · have hc2 : Ordering.gt = Ordering.eq := hc
          exact absurd hc2 (by decide)
        · have hc2 : Ordering.lt = Ordering.gt := hc
          exact absurd hc2 (by decide)
        · show lexDom (encodeVal b ++ encodeValList bs2) (encodeVal a ++ encodeValList as2)
          rw [IHV.2.1 hcc]
          exact lexDom_append_left _ (IHL.2.2 hc)
        · show lexDom (encodeVal b ++ encodeValList bs2) (encodeVal a ++ encodeValList as2)
          exact lexDom_append (IHV.2.2 hcc) _ _

/-- The natural order of two same-typed (`NUL`-free) values coincides with
byte-wise lexicographic order of their encodings. -/
theorem order_preserved {T : Ty} {a b : Val} (hta : hasTy a T = true)
    (htb : hasTy b T = true) (hna : nulFree a = true) (hnb : nulFree b = true) :
    cmpVal a b = lexCmp (encodeVal a) (encodeVal b) := by
  have H := (presAux (sizeOf a)).1 T a b (le_refl _) hta htb hna hnb
  rcases hcv : cmpVal a b with _ | _ | _
  · rw [lexCmp_of_lexDom (H.1 hcv)]
  · rw [H.2.1 hcv, lexCmp_refl]
  · rw [lexCmp_swap (encodeVal a) (encodeVal b), lexCmp_of_lexDom (H.2.2 hcv)]
    rfl

/-! ### The convenience entry point never fails -/

theorem encodeE_okAux : ∀ fuel : Nat,
    (∀ (v : Val) (st : MemW), sizeOf v ≤ fuel → encodeE v st = .ok (st ++ encodeVal v)) ∧
    (∀ (vs : ValList) (st : MemW), sizeOf vs ≤ fuel →
      encodeEList vs st = .ok (st ++ encodeValList vs)) := by
  intro fuel
  induction fuel with
  | zero =>
    constructor
    · intro v st hs
      exact absurd hs (by have := val_sizeOf_pos v; omega)
    · intro vs st hs
      exact absurd hs (by have := valList_sizeOf_pos vs; omega)
  | succ fuel ih =>
    obtain ⟨ihV, ihL⟩ := ih
    constructor
    · intro v st hs
      cases v with
      | vU8 n => rfl
      | vU16 n => rfl
      | vU32 n => rfl
      | vU64 n => rfl
      | vVarU n => rfl
      | vI8 n => rfl
      | vI16 n => rfl
      | vI32 n => rfl
      | vI64 n => rfl
      | vVarI n => rfl
      | vF32 n => rfl
      | vF64 n => rfl
      | vBool b => rfl
      | vChar c => rfl
      | vStr cs => rfl
      | vNone => rfl
      | vSome w =>
        have hsz : sizeOf w ≤ fuel := by
          simp at hs
          omega
        have h2 := ihV w (st ++ emit_bool true) hsz
        show encodeE w (st ++ emit_bool true) = .ok (st ++ (emit_bool true ++ encodeVal w))
        rw [h2, List.append_assoc]
      | vTup vs =>
        have hsz : sizeOf vs ≤ fuel := by
          simp at hs
          omega
        exact ihL vs st hsz
      | vSum tag fields =>
        have hsz : sizeOf fields ≤ fuel := by
          simp at hs
          omega
        have h2 := ihL fields (st ++ emit_var_u64 tag) hsz
        show encodeEList fields (st ++ emit_var_u64 tag) =
          .ok (st ++ (emit_var_u64 tag ++ encodeValList fields))
        rw [h2, List.append_assoc]
    · intro vs st hs
      cases vs with
      | nil =>
        show Except.ok st = .ok (st ++ ([] : List Nat))
        rw [List.append_nil]
      | cons v vs2 =>
        have hszV : sizeOf v ≤ fuel := by
          simp at hs
          omega
        have hszL : sizeOf vs2 ≤ fuel := by
          simp at hs
          omega
        have h1 := ihV v st hszV
        show (match encodeE v st with
              | Except.error e => Except.error e
              | Except.ok st2 => encodeEList vs2 st2) =
          Except.ok (st ++ (encodeVal v ++ encodeValList vs2))
        rw [h1]
        show encodeEList vs2 (st ++ encodeVal v) = .ok (st ++ (encodeVal v ++ encodeValList vs2))
        rw [ihL vs2 (st ++ encodeVal v) hszL, List.append_assoc]

theorem encodeE_ok (v : Val) (st : MemW) : encodeE v st = .ok (st ++ encodeVal v) :=
  (encodeE_okAux (sizeOf v)).1 v st (le_refl _)

/-! ### Enum declaration extension -/

/-- Append a new variant at the end of a declaration. -/
def varsAppend : TyVariants → TyList → TyVariants
  | .vnil, nv => .vcons nv .vnil
  | .vcons f rest, nv => .vcons f (varsAppend rest nv)

theorem variantFields_append {nv : TyList} :
    ∀ (tag : Nat) (vars : TyVariants) {ts : TyList}, variantFields vars tag = some ts →
      variantFields (varsAppend vars nv) tag = some ts := by
  intro tag
  induction tag with
  | zero =>
    intro vars ts h
    cases vars with
    | vnil => exact absurd h (by simp [variantFields])
    | vcons f rest => exact h
  | succ n ih =>
    intro vars ts h
    cases vars with
    | vnil => exact absurd h (by simp [variantFields])
    | vcons f rest => exact ih rest h

/-! ### Converse direction for fixed-width byte strings -/

theorem beBytes_lt_of_lexCmp {k x y : Nat} (hx : x < 2 ^ (8 * k)) (hy : y < 2 ^ (8 * k))
    (h : lexCmp (beBytes k x) (beBytes k y) = .lt) : x < y := by
  rcases Nat.lt_trichotomy x y with hxy | hxy | hxy
  · exact hxy
  · subst hxy
    rw [lexCmp_refl] at h
    exact absurd h (by decide)
  · have hd := beBytes_dom_of_lt hxy hx
    have := lexCmp_of_lexDom hd
    rw [lexCmp_swap] at this
    rw [h] at this
    exact absurd this (by decide)

/-- NaN test on an IEEE-754 single-precision bit pattern. -/
def isNaN32 (bits : Nat) : Bool :=
  decide (bits / 2 ^ 23 % 2 ^ 8 = 0xFF ∧ bits % 2 ^ 23 ≠ 0)

/-- NaN test on an IEEE-754 double-precision bit pattern. -/
def isNaN64 (bits : Nat) : Bool :=
  decide (bits / 2 ^ 52 % 2 ^ 11 = 0x7FF ∧ bits % 2 ^ 52 ≠ 0)

theorem varU_head_nibble (v : Nat) (hv : v < 2 ^ 64) :
    (emit_var_u64 v).headD 0 / 16 = varUCode v := by
  rw [varU_spec v hv]
  have hb := varUCode_bounds v hv
  have hp : (0 : Nat) < 2 ^ (8 * varUCode v) := Nat.pos_pow_of_pos _ (by norm_num)
  have h1 : 16 * varUCode v ≤
      (varUCode v * 2 ^ (8 * varUCode v + 4) + v) / 2 ^ (8 * varUCode v) := by
    rw [Nat.le_div_iff_mul_le hp]
    calc 16 * varUCode v * 2 ^ (8 * varUCode v)
        = 2 ^ (8 * varUCode v) * (16 * varUCode v) := by ring
      _ ≤ varUCode v * 2 ^ (8 * varUCode v + 4) + v := hb.2.1
  have h2 : (varUCode v * 2 ^ (8 * varUCode v + 4) + v) / 2 ^ (8 * varUCode v) <
      16 * varUCode v + 16 := by
    rw [Nat.div_lt_iff_lt_mul hp]
    calc varUCode v * 2 ^ (8 * varUCode v + 4) + v
        < 2 ^ (8 * varUCode v) * (16 * varUCode v + 16) := hb.2.2
      _ = (16 * varUCode v + 16) * 2 ^ (8 * varUCode v) := by ring
  have hle := varUCode_le_eight v
  have hcons : beBytes (varUCode v + 1) (varUCode v * 2 ^ (8 * varUCode v + 4) + v) =
      ((varUCode v * 2 ^ (8 * varUCode v + 4) + v) >>> (8 * varUCode v)) % 256 ::
        beBytes (varUCode v) (varUCode v * 2 ^ (8 * varUCode v + 4) + v) := rfl
  rw [hcons, List.headD_cons, Nat.shiftRight_eq_div_pow, Nat.mod_eq_of_lt (by omega)]
  omega

theorem varI_sign_bit (v : Int) (h0 : -(2 ^ 63) ≤ v) (h1 : v < 2 ^ 63) :
    (0 ≤ v → 128 ≤ (emit_var_i64 v).headD 0) ∧
    (v < 0 → (emit_var_i64 v).headD 0 < 128) := by
  constructor
  · intro hv
    rw [varI_spec_nonneg v hv h1]
    have hb := varI_head_bounds v.toNat (by omega)
    have hle := varICode_le_eight v.toNat
    have hcons : beBytes (varICode v.toNat + 1) (varIPosVal v.toNat) =
        (varIPosVal v.toNat >>> (8 * varICode v.toNat)) % 256 ::
          beBytes (varICode v.toNat) (varIPosVal v.toNat) := rfl
    rw [hcons, List.headD_cons, Nat.shiftRight_eq_div_pow, Nat.mod_eq_of_lt (by omega)]
    omega
  · intro hv
    rw [varI_spec_neg v h0 hv]
    have hb := varI_head_bounds (v.natAbs - 1) (by omega)
    have hle := varICode_le_eight (v.natAbs - 1)
    have hcons : beBytes (varICode (v.natAbs - 1) + 1)
        (2 ^ (8 * (varICode (v.natAbs - 1) + 1)) - 1 - varIPosVal (v.natAbs - 1)) =
        ((2 ^ (8 * (varICode (v.natAbs - 1) + 1)) - 1 - varIPosVal (v.natAbs - 1)) >>>
            (8 * varICode (v.natAbs - 1))) % 256 ::
          beBytes (varICode (v.natAbs - 1))
            (2 ^ (8 * (varICode (v.natAbs - 1) + 1)) - 1 - varIPosVal (v.natAbs - 1)) := rfl
    rw [hcons, List.headD_cons, Nat.shiftRight_eq_div_pow, Nat.mod_eq_of_lt (by omega)]
    omega

/-! ### Claims -/

/-- Claim C1, counterexample to the unrestricted statement: with an interior
`NUL` in a non-final string field, the tuple `("a", "b")` sorts strictly
below `("a\x00", "a")` in the natural order, yet its encoding compares
strictly greater — order preservation fails for strings containing `NUL`. -/
theorem C1_interior_nul_counterexample :
    hasTy (.vTup (.cons (.vStr [97]) (.cons (.vStr [98]) .nil)))
        (.tTup (.tcons .tStr (.tcons .tStr .tnil))) = true ∧
    hasTy (.vTup (.cons (.vStr [97, 0]) (.cons (.vStr [97]) .nil)))
        (.tTup (.tcons .tStr (.tcons .tStr .tnil))) = true ∧
    cmpVal (.vTup (.cons (.vStr [97]) (.cons (.vStr [98]) .nil)))
        (.vTup (.cons (.vStr [97, 0]) (.cons (.vStr [97]) .nil))) = .lt ∧
    lexCmp (encodeVal (.vTup (.cons (.vStr [97]) (.cons (.vStr [98]) .nil))))
        (encodeVal (.vTup (.cons (.vStr [97, 0]) (.cons (.vStr [97]) .nil)))) = .gt := by
  decide

/-- Claim C1 (amended: all string components `NUL`-free, the producer
obligation the encoder documents): for every supported type and every two
same-typed values, the natural semantic order coincides with unsigned
byte-wise lexicographic order of the encodings — for floats under the IEEE
total order (negative NaNs first, positive NaNs last, `-0` before `+0`). -/
theorem C1_order_agrees_with_memcmp :
    ∀ (T : Ty) (a b : Val), hasTy a T = true → hasTy b T = true →
      nulFree a = true → nulFree b = true →
      cmpVal a b = lexCmp (encodeVal a) (encodeVal b) :=
  fun _ _ _ hta htb hna hnb => order_preserved hta htb hna hnb

/-- Claim C1, witness at the concrete pair `(42, "fizz") < (43, "f")`. -/
theorem C1_order_agrees_with_memcmp_witness :
    cmpVal (.vTup (.cons (.vU8 42) (.cons (.vStr [102, 105, 122, 122]) .nil)))
        (.vTup (.cons (.vU8 43) (.cons (.vStr [102]) .nil))) =
      lexCmp (encodeVal (.vTup (.cons (.vU8 42) (.cons (.vStr [102, 105, 122, 122]) .nil))))
        (encodeVal (.vTup (.cons (.vU8 43) (.cons (.vStr [102]) .nil)))) :=
  C1_order_agrees_with_memcmp (.tTup (.tcons .tU8 (.tcons .tStr .tnil)))
    (.vTup (.cons (.vU8 42) (.cons (.vStr [102, 105, 122, 122]) .nil)))
    (.vTup (.cons (.vU8 43) (.cons (.vStr [102]) .nil)))
    (by decide) (by decide) (by decide) (by decide)

/-- Claim C2: `emit_var_u64 v` is exactly `L+1` bytes, the big-endian image
of `v` prefixed with the length code `L` of `v`'s bucket as the high nibble
of the first byte, together with the concrete witnesses from the spec. -/
theorem C2_var_u64_format :
    (∀ v : Nat, v < 2 ^ 64 →
      emit_var_u64 v = beBytes (varUCode v + 1) (varUCode v * 2 ^ (8 * varUCode v + 4) + v) ∧
      (emit_var_u64 v).length = varUCode v + 1 ∧
      (emit_var_u64 v).headD 0 / 16 = varUCode v) ∧
    emit_var_u64 0 = [0x00] ∧
    emit_var_u64 15 = [0x0F] ∧
    emit_var_u64 16 = [0x10, 0x10] ∧
    emit_var_u64 (2 ^ 60) = [0x80, 0x10, 0x00, 0x00, 0x00, 0x00, 0x00, 0x00, 0x00] ∧
    emit_var_u64 (2 ^ 64 - 1) = [0x80, 0xFF, 0xFF, 0xFF, 0xFF, 0xFF, 0xFF, 0xFF, 0xFF] := by
  refine ⟨?_, by decide, by decide, by decide, by decide, by decide⟩
  intro v hv
  refine ⟨varU_spec v hv, ?_, varU_head_nibble v hv⟩
  rw [varU_spec v hv, beBytes_length]

/-- Claim C2, witness at `v = 300` (bucket `L = 1`). -/
theorem C2_var_u64_format_witness :
    emit_var_u64 300 =
      beBytes (varUCode 300 + 1) (varUCode 300 * 2 ^ (8 * varUCode 300 + 4) + 300) :=
  (C2_var_u64_format.1 300 (by decide)).1

/-- Claim C3: on `[-2^63, 2^63)` the signed variable-length encoding writes,
for `v ≥ 0`, the big-endian image of sign bit `1`, length code, and
magnitude (`varIPosVal v`); for `v < 0` the complement of the positive-form
image of `|v| - 1` in every bit except that the sign bit ends up `0` —
equivalently, the byte-wise complement of `varIPosVal (|v| - 1)`.  The high
bit of the first byte is `1` exactly for `v ≥ 0`, and the spec's concrete
byte witnesses hold. -/
theorem C3_var_i64_format :
    (∀ v : Int, -(2 ^ 63) ≤ v → v < 2 ^ 63 →
      (0 ≤ v → emit_var_i64 v = beBytes (varICode v.toNat + 1) (varIPosVal v.toNat)) ∧
      (v < 0 → emit_var_i64 v = beBytes (varICode (v.natAbs - 1) + 1)
          (2 ^ (8 * (varICode (v.natAbs - 1) + 1)) - 1 - varIPosVal (v.natAbs - 1))) ∧
      (0 ≤ v → 128 ≤ (emit_var_i64 v).headD 0) ∧
      (v < 0 → (emit_var_i64 v).headD 0 < 128)) ∧
    emit_var_i64 0 = [0x80] ∧
    emit_var_i64 (-1) = [0x7F] ∧
    emit_var_i64 (-8) = [0x78] ∧
    emit_var_i64 (-9) = [0x77, 0xF7] ∧
    emit_var_i64 (-(2 ^ 63)) = [0x3F, 0x80, 0x00, 0x00, 0x00, 0x00, 0x00, 0x00, 0x00] := by
  refine ⟨?_, by decide, by decide, by decide, by decide, by decide⟩
  intro v h0 h1
  exact ⟨fun hv => varI_spec_nonneg v hv h1, fun hv => varI_spec_neg v h0 hv,
    (varI_sign_bit v h0 h1).1, (varI_sign_bit v h0 h1).2⟩

/-- Claim C3, witness at `v = 5`. -/
theorem C3_var_i64_format_witness :
    emit_var_i64 5 = beBytes (varICode (5 : Int).toNat + 1) (varIPosVal (5 : Int).toNat) :=
  (C3_var_i64_format.1 5 (by decide) (by decide)).1 (by decide)

/-- Claim C4, counterexample to the unrestricted statement: a NaN bit
pattern with the sign bit set sorts strictly BELOW the image of `+∞`. -/
theorem C4_negative_nan_counterexample :
    isNaN32 0xFFC00000 = true ∧
    lexCmp (emit_f32 0xFFC00000) (emit_f32 0x7F800000) = .lt := by
  decide

/-- Claim C4 (amended: "every NaN" restricted to NaNs with sign bit 0, as
for sign-bit-1 NaN patterns the transform inverts all bits and they sort
below `-∞`): the float emitters write exactly the big-endian bytes of the
sign-flip / full-complement transform of the IEEE bit pattern; every
positive-sign NaN image exceeds the `+∞` image; and the `-0` image is the
immediate lexicographic predecessor of the `+0` image. -/
theorem C4_float_transform :
    (∀ bits : Nat, bits < 2 ^ 32 →
      emit_f32 bits = beBytes 4 (if bits < 2 ^ 31 then bits + 2 ^ 31 else 2 ^ 32 - 1 - bits)) ∧
    (∀ bits : Nat, bits < 2 ^ 64 →
      emit_f64 bits = beBytes 8 (if bits < 2 ^ 63 then bits + 2 ^ 63 else 2 ^ 64 - 1 - bits)) ∧
    (∀ bits : Nat, isNaN32 bits = true → bits < 2 ^ 31 →
      lexCmp (emit_f32 0x7F800000) (emit_f32 bits) = .lt) ∧
    (∀ bits : Nat, isNaN64 bits = true → bits < 2 ^ 63 →
      lexCmp (emit_f64 0x7FF0000000000000) (emit_f64 bits) = .lt) ∧
    lexCmp (emit_f32 (2 ^ 31)) (emit_f32 0) = .lt ∧
    (∀ bits : Nat, bits < 2 ^ 32 → ¬(lexCmp (emit_f32 (2 ^ 31)) (emit_f32 bits) = .lt ∧
      lexCmp (emit_f32 bits) (emit_f32 0) = .lt)) ∧
    lexCmp (emit_f64 (2 ^ 63)) (emit_f64 0) = .lt ∧
    (∀ bits : Nat, bits < 2 ^ 64 → ¬(lexCmp (emit_f64 (2 ^ 63)) (emit_f64 bits) = .lt ∧
      lexCmp (emit_f64 bits) (emit_f64 0) = .lt)) := by
  refine ⟨emit_f32_spec, emit_f64_spec, ?_, ?_, by decide, ?_, by decide, ?_⟩
  · intro bits hnan hsign
    have hn := of_decide_eq_true hnan
    have hgt : 0x7F800000 < bits := by omega
    rw [emit_f32_spec 0x7F800000 (by norm_num), emit_f32_spec bits (by omega)]
    rw [if_pos (by norm_num), if_pos hsign]
    exact lexCmp_of_lexDom (beBytes_dom_of_lt (by omega) (by omega))
  · intro bits hnan hsign
    have hn := of_decide_eq_true hnan
    have hgt : 0x7FF0000000000000 < bits := by omega
    rw [emit_f64_spec 0x7FF0000000000000 (by norm_num), emit_f64_spec bits (by omega)]
    rw [if_pos (by norm_num), if_pos hsign]
    exact lexCmp_of_lexDom (beBytes_dom_of_lt (by omega) (by omega))
  · intro bits hb hcontra
    obtain ⟨hA, hB⟩ := hcontra
    rw [show emit_f32 (2 ^ 31) = beBytes 4 (2 ^ 32 - 1 - 2 ^ 31) from by decide,
      emit_f32_spec bits hb] at hA
    rw [emit_f32_spec bits hb,
      show emit_f32 0 = beBytes 4 (0 + 2 ^ 31) from by decide] at hB
    by_cases hbs : bits < 2 ^ 31
    · rw [if_pos hbs] at hA hB
      have h1 := beBytes_lt_of_lexCmp (by omega) (by omega) hA
      have h2 := beBytes_lt_of_lexCmp (by omega) (by omega) hB
      omega
    · rw [if_neg hbs] at hA hB
      have h1 := beBytes_lt_of_lexCmp (by omega) (by omega) hA
      have h2 := beBytes_lt_of_lexCmp (by omega) (by omega) hB
      omega
  · intro bits hb hcontra
    obtain ⟨hA, hB⟩ := hcontra
    rw [show emit_f64 (2 ^ 63) = beBytes 8 (2 ^ 64 - 1 - 2 ^ 63) from by decide,
      emit_f64_spec bits hb] at hA
    rw [emit_f64_spec bits hb,
      show emit_f64 0 = beBytes 8 (0 + 2 ^ 63) from by decide] at hB
    by_cases hbs : bits < 2 ^ 63
    · rw [if_pos hbs] at hA hB
      have h1 := beBytes_lt_of_lexCmp (by omega) (by omega) hA
      have h2 := beBytes_lt_of_lexCmp (by omega) (by omega) hB
      omega
    · rw [if_neg hbs] at hA hB
      have h1 := beBytes_lt_of_lexCmp (by omega) (by omega) hA
      have h2 := beBytes_lt_of_lexCmp (by omega) (by omega) hB
      omega

/-- Claim C4, witness: the transform at the bit pattern of `π` as `f32`,
and the canonical positive NaN image above the `+∞` image. -/
theorem C4_float_transform_witness :
    emit_f32 0x40490FDB =
      beBytes 4 (if (0x40490FDB : Nat) < 2 ^ 31 then 0x40490FDB + 2 ^ 31
        else 2 ^ 32 - 1 - 0x40490FDB) ∧
    lexCmp (emit_f32 0x7F800000) (emit_f32 0x7FC00000) = .lt :=
  ⟨C4_float_transform.1 0x40490FDB (by decide),
   C4_float_transform.2.2.1 0x7FC00000 (by decide) (by decide)⟩

/-- Claim C5: each fixed-width signed emitter writes exactly the `n/8`
big-endian bytes of the bit pattern with the sign bit flipped (`v XOR
2^(n-1)`, equivalently the shifted value `v + 2^(n-1)` on the machine
range), with the spec's `i8` byte witnesses. -/
theorem C5_fixed_signed :
    (∀ v : Int, emit_i8 v = beBytes 1 (toU 8 v ^^^ 2 ^ 7)) ∧
    (∀ v : Int, emit_i16 v = beBytes 2 (toU 16 v ^^^ 2 ^ 15)) ∧
    (∀ v : Int, emit_i32 v = beBytes 4 (toU 32 v ^^^ 2 ^ 31)) ∧
    (∀ v : Int, emit_i64 v = beBytes 8 (toU 64 v ^^^ 2 ^ 63)) ∧
    (∀ v : Int, -(2 ^ 7) ≤ v → v < 2 ^ 7 → emit_i8 v = beBytes 1 ((v + 2 ^ 7).toNat)) ∧
    (∀ v : Int, -(2 ^ 15) ≤ v → v < 2 ^ 15 → emit_i16 v = beBytes 2 ((v + 2 ^ 15).toNat)) ∧
    (∀ v : Int, -(2 ^ 31) ≤ v → v < 2 ^ 31 → emit_i32 v = beBytes 4 ((v + 2 ^ 31).toNat)) ∧
    (∀ v : Int, -(2 ^ 63) ≤ v → v < 2 ^ 63 → emit_i64 v = beBytes 8 ((v + 2 ^ 63).toNat)) ∧
    emit_i8 (-128) = [0x00] ∧ emit_i8 0 = [0x80] ∧ emit_i8 127 = [0xFF] := by
  refine ⟨?_, ?_, ?_, ?_, emit_i8_spec, emit_i16_spec, emit_i32_spec, emit_i64_spec,
    by decide, by decide, by decide⟩
  · intro v
    unfold emit_i8 write_u8
    rw [show toU 8 (-(2 ^ 7)) = 2 ^ 7 from by decide]
  · intro v
    unfold emit_i16 write_be_u16
    rw [show toU 16 (-(2 ^ 15)) = 2 ^ 15 from by decide]
  · intro v
    unfold emit_i32 write_be_u32
    rw [show toU 32 (-(2 ^ 31)) = 2 ^ 31 from by decide]
  · intro v
    unfold emit_i64 write_be_u64
    rw [show toU 64 (-(2 ^ 63)) = 2 ^ 63 from by decide]

/-- Claim C5, witness at `v = -300` for the 16-bit width. -/
theorem C5_fixed_signed_witness :
    emit_i16 (-300) = beBytes 2 ((-300 + 2 ^ 15).toNat) :=
  C5_fixed_signed.2.2.2.2.2.1 (-300) (by decide) (by decide)

/-- Claim C6: `emit_str` writes exactly the UTF-8 bytes of the string
followed by a single terminating `0x00` byte and nothing else; in
particular the "fizzbuzz" witness holds. -/
theorem C6_string_terminator :
    (∀ s : List Nat, emit_str s = strBytes s ++ [0x00]) ∧
    (∀ s : List Nat, (emit_str s).length = (strBytes s).length + 1) ∧
    emit_str [0x66, 0x69, 0x7A, 0x7A, 0x62, 0x75, 0x7A, 0x7A] =
      [0x66, 0x69, 0x7A, 0x7A, 0x62, 0x75, 0x7A, 0x7A, 0x00] := by
  refine ⟨fun s => rfl, fun s => ?_, by decide⟩
  rw [show emit_str s = strBytes s ++ [0x00] from rfl, List.length_append]
  rfl

/-- Claim C7: a tuple or record encodes as the concatenation of its field
encodings in declaration order, with no separators, padding, or length
prefix; in particular the `(42u8, "fizz")` witness holds. -/
theorem C7_tuple_concatenation :
    (∀ vs : ValList, encodeVal (.vTup vs) = encodeValList vs) ∧
    encodeValList .nil = [] ∧
    (∀ (v : Val) (vs : ValList),
      encodeValList (.cons v vs) = encodeVal v ++ encodeValList vs) ∧
    encodeVal (.vTup (.cons (.vU8 42) (.cons (.vStr [0x66, 0x69, 0x7A, 0x7A]) .nil))) =
      [0x2A, 0x66, 0x69, 0x7A, 0x7A, 0x00] :=
  ⟨fun _ => rfl, rfl, fun _ _ => rfl, by decide⟩

/-- Claim C8: a tagged-union value encodes as the `VarU` image of its
variant index followed by the concatenated field encodings; appending a new
trailing variant keeps every old value well typed with an unchanged byte
image; and a tag below 16 occupies exactly one byte. -/
theorem C8_enum_tag_format :
    (∀ (tag : Nat) (fields : ValList),
      encodeVal (.vSum tag fields) = emit_var_u64 tag ++ encodeValList fields) ∧
    (∀ (vars : TyVariants) (nv : TyList) (tag : Nat) (fields : ValList),
      hasTy (.vSum tag fields) (.tSum vars) = true →
        hasTy (.vSum tag fields) (.tSum (varsAppend vars nv)) = true ∧
        encodeVal (.vSum tag fields) = emit_var_u64 tag ++ encodeValList fields) ∧
    (∀ tag : Nat, tag < 16 → (emit_var_u64 tag).length = 1) := by
  refine ⟨fun _ _ => rfl, ?_, ?_⟩
  · intro vars nv tag fields h
    obtain ⟨t2, f2, ts, heq, htag, hvf, hfl⟩ := hasTy_sum h
    injection heq with h1 h2
    subst h1
    subst h2
    refine ⟨?_, rfl⟩
    have hvf2 := @variantFields_append nv tag vars ts hvf
    show (decide (tag < 2 ^ 64) &&
        (match variantFields (varsAppend vars nv) tag with
          | some ts => hasTyList fields ts
          | none => false)) = true
    rw [hvf2, Bool.and_eq_true]
    exact ⟨decide_eq_true htag, hfl⟩
  · intro tag h
    rw [varU_spec tag (by omega), beBytes_length,
      show varUCode tag = 0 from by unfold varUCode; rw [if_pos (by omega)]]

/-- Claim C8, witness: a one-variant declaration extended by a new variant
keeps the old value typed, and tag `1` is a single byte. -/
theorem C8_enum_tag_format_witness :
    hasTy (.vSum 0 (.cons (.vU32 7) .nil))
        (.tSum (varsAppend (.vcons (.tcons .tU32 .tnil) .vnil) .tnil)) = true ∧
    (emit_var_u64 1).length = 1 :=
  ⟨(C8_enum_tag_format.2.1 (.vcons (.tcons .tU32 .tnil) .vnil) .tnil 0
      (.cons (.vU32 7) .nil) (by decide)).1,
   C8_enum_tag_format.2.2 1 (by decide)⟩

/-- Claim C9, counterexample: `emit_seq_elt` does not reject — its `fail!`
is commented out (rust-lang/rust PR 17504) and it simply runs the element
closure, here succeeding on an empty sink. -/
theorem C9_seq_elt_counterexample :
    emit_seq_elt 0 (fun st => Except.ok st) [] = Except.ok [] := rfl

/-- Claim C9 (amended: of the sequence/map dispatcher operations,
`emit_seq`, `emit_map`, `emit_map_elt_key` and `emit_map_elt_val` reject
every request with the fixed hard error, for every length/index argument
and every callback; `emit_seq_elt` alone forwards to its element
callback instead of failing). -/
theorem C9_unsupported_shapes :
    (∀ (len : Nat) (f : MemW → EncResult) (st : MemW),
      emit_seq len f st = .error "Not yet implemented") ∧
    (∀ (len : Nat) (f : MemW → EncResult) (st : MemW),
      emit_map len f st = .error "Not yet implemented") ∧
    (∀ (idx : Nat) (f : MemW → EncResult) (st : MemW),
      emit_map_elt_key idx f st = .error "Not yet implemented") ∧
    (∀ (idx : Nat) (f : MemW → EncResult) (st : MemW),
      emit_map_elt_val idx f st = .error "Not yet implemented") ∧
    (∀ (idx : Nat) (f : MemW → EncResult) (st : MemW), emit_seq_elt idx f st = f st) :=
  ⟨fun _ _ _ => rfl, fun _ _ _ => rfl, fun _ _ _ => rfl, fun _ _ _ => rfl, fun _ _ _ => rfl⟩

/-- Claim C10: driving any supported value against the in-memory sink
succeeds — every emit step returns `ok`, so the error branch behind the
`unwrap` in `encode` is unreachable and `encode` returns the byte image. -/
theorem C10_encode_never_fails :
    (∀ (v : Val) (st : MemW), encodeE v st = .ok (st ++ encodeVal v)) ∧
    (∀ v : Val, encode v = encodeVal v) := by
  refine ⟨encodeE_ok, ?_⟩
  intro v
  unfold encode
  rw [encodeE_ok v []]
  rfl

end Bytekey
